import Mathlib

/-!
# Verification of the dromos storage engine specification

Shallow embedding of the dromos ROM-graph storage engine (Rust) in Lean 4,
with theorems settling the specification claims about:

* the NES format adapter (`src/rom/nes.rs`, `src/rom/types.rs`),
* the bsdiff-style diff codec (`src/diff/bsdiff.rs`, §4.2 of the spec),
* the relational repository (`src/db/repository.rs`, `src/db/schema.rs`),
* the in-memory graph and its BFS path search (`src/graph/store.rs`),
* the storage manager (`src/storage/manager.rs`),
* the exchange import (`src/exchange/import.rs`),
* the build pipeline of the REPL (`src/cli/repl.rs`).

Machine bytes (`u8`) are modelled as `Nat` with explicit `% 256` where the
Rust code truncates (`as u8`) or wraps; bit operations on bytes are written
in `/`, `%`, `*`, `+` form, each annotated with the Rust expression it
translates.
-/

namespace Dromos

/-! ## NES format adapter (`src/rom/types.rs`, `src/rom/nes.rs`) -/

/-- `Mirroring` from `src/rom/types.rs` (`Horizontal = 0, Vertical = 1,
FourScreen = 2`). -/
inductive Mirroring where
  | horizontal
  | vertical
  | fourScreen
deriving DecidableEq, Repr

/-- The `u8` discriminant of a `Mirroring` value (`m as u8`). -/
def Mirroring.toNat : Mirroring → Nat
  | .horizontal => 0
  | .vertical => 1
  | .fourScreen => 2

/-- `impl From<u8> for Mirroring` from `src/rom/types.rs`: `1 => Vertical`,
`2 => FourScreen`, `_ => Horizontal`. -/
def Mirroring.fromU8 (value : Nat) : Mirroring :=
  if value = 1 then .vertical
  else if value = 2 then .fourScreen
  else .horizontal

/-- `NesHeader` from `src/rom/types.rs`.  `prg_rom_size`/`chr_rom_size` are
`usize`, `mapper` is `u16`, `submapper` is `Option<u8>`. -/
structure NesHeader where
  prg_rom_size : Nat
  chr_rom_size : Nat
  has_trainer : Bool
  mapper : Nat
  mirroring : Mirroring
  has_battery : Bool
  is_nes2 : Bool
  submapper : Option Nat
deriving DecidableEq, Repr

/-- The magic bytes `"NES\x1A"` = `[0x4E, 0x45, 0x53, 0x1A]`. -/
def nesMagic : List Nat := [78, 69, 83, 26]

/-- `parse_nes_header_bytes` from `src/rom/nes.rs`.  The 16 header bytes are
a list of `u8` values (each `< 256`).  Bit expressions are translated to
arithmetic:

* `(flags7 & 0x0C) == 0x08`  ↦  `flags7 / 4 % 4 = 2`
* `(flags6 & 0x04) != 0`     ↦  `flags6 / 4 % 2 = 1`
* `(flags6 & 0x02) != 0`     ↦  `flags6 / 2 % 2 = 1`
* `(flags6 & 0x08) != 0`     ↦  `flags6 / 8 % 2 = 1`
* `(flags6 & 0x01) != 0`     ↦  `flags6 % 2 = 1`
* `flags6 >> 4`              ↦  `flags6 / 16`           (`flags6 < 256`)
* `flags7 & 0xF0`            ↦  `flags7 / 16 * 16`
* `mapper_hi | mapper_lo`    ↦  `+` (disjoint bit ranges)
* `mapper |= (flags8 & 0x0F) << 8` ↦ `+ flags8 % 16 * 256`
* `(flags8 >> 4) & 0x0F`     ↦  `flags8 / 16 % 16`
-/
def parse_nes_header_bytes : List Nat → Option NesHeader
  | [b0, b1, b2, b3, b4, b5, flags6, flags7, flags8, _, _, _, _, _, _, _] =>
    -- if &header[0..4] != b"NES\x1a" { return None }
    if [b0, b1, b2, b3] ≠ nesMagic then none
    else
      let is_nes2 := flags7 / 4 % 4 = 2
      let mirroring :=
        if flags6 / 8 % 2 = 1 then Mirroring.fourScreen
        else if flags6 % 2 = 1 then Mirroring.vertical
        else Mirroring.horizontal
      let mapper0 := flags7 / 16 * 16 + flags6 / 16
      let mapper := if is_nes2 then mapper0 + flags8 % 16 * 256 else mapper0
      let submapper :=
        if is_nes2 then
          let sub := flags8 / 16 % 16
          if sub > 0 then some sub else none
        else none
      some {
        prg_rom_size := b4 * 16 * 1024
        chr_rom_size := b5 * 8 * 1024
        has_trainer := decide (flags6 / 4 % 2 = 1)
        mapper := mapper
        mirroring := mirroring
        has_battery := decide (flags6 / 2 % 2 = 1)
        is_nes2 := decide is_nes2
        submapper := submapper }
  | _ => none

/-- `build_nes_header` from `src/rom/nes.rs`.  Emits the 16 header bytes;
the trainer bit (`0x04` in flags 6) is intentionally never set.  Bit
expressions translated to arithmetic:

* `(prg_rom_size / (16*1024)) as u8` ↦ `… / 16384 % 256`
* `(chr_rom_size / (8*1024)) as u8`  ↦ `… / 8192 % 256`
* `((mapper & 0x0F) << 4) as u8`     ↦ `mapper % 16 * 16`
* `flags6 |= 0x01 / 0x08 / 0x02`     ↦ `+ 1 / + 8 / + 2` (bits disjoint)
* `(mapper & 0xF0) as u8`            ↦ `mapper / 16 % 16 * 16`
* `flags7 |= 0x08`                   ↦ `+ 8`
* `((mapper >> 8) & 0x0F) as u8`     ↦ `mapper / 256 % 16`
* `submapper.unwrap_or(0) & 0x0F`    ↦ `(submapper.getD 0) % 16`
* `mapper_ext | (submapper << 4)`    ↦ `+ submapper * 16` (bits disjoint)
-/
def build_nes_header (h : NesHeader) : List Nat :=
  let flags6 := h.mapper % 16 * 16 +
    (match h.mirroring with
      | .vertical => 1
      | .fourScreen => 8
      | .horizontal => 0) +
    (match h.has_battery with | true => 2 | false => 0)
  let flags7 := h.mapper / 16 % 16 * 16 +
    (match h.is_nes2 with | true => 8 | false => 0)
  let byte8 :=
    match h.is_nes2 with
    | true => h.mapper / 256 % 16 + (h.submapper.getD 0) % 16 * 16
    | false => 0
  [78, 69, 83, 26,
   h.prg_rom_size / 16384 % 256,
   h.chr_rom_size / 8192 % 256,
   flags6, flags7, byte8, 0, 0, 0, 0, 0, 0, 0]

/-- A header descriptor is valid when it lies in the image of the parser:
bank counts fit in a byte and are exact multiples of the bank size, the
mapper number fits in the representable range (8 bits for iNES 1.0, 12 bits
for NES 2.0), and the submapper is only present for NES 2.0 with a value in
`1..=15` (the parser maps a zero nibble to `None`).  `submapper.getD 1`
encodes "`none`, or `some s` with `1 ≤ s < 16`". -/
def NesHeaderValid (h : NesHeader) : Prop :=
  h.prg_rom_size % 16384 = 0 ∧ h.prg_rom_size / 16384 < 256 ∧
  h.chr_rom_size % 8192 = 0 ∧ h.chr_rom_size / 8192 < 256 ∧
  (match h.is_nes2 with
    | true => h.mapper < 4096 ∧ 1 ≤ h.submapper.getD 1 ∧ h.submapper.getD 1 < 16
    | false => h.mapper < 256 ∧ h.submapper = none)

set_option maxHeartbeats 2000000 in
/-- C7: For any valid NES header descriptor `h`, parsing the 16 bytes
produced by `build_nes_header h` yields exactly `h` with the trainer flag
forced to `false`. -/
theorem C7_parse_build_roundtrip (h : NesHeader) (hv : NesHeaderValid h) :
    parse_nes_header_bytes (build_nes_header h) =
      some { h with has_trainer := false } := by
  obtain ⟨prg, chr, tr, mp, mir, bat, n2, sub⟩ := h
  simp only [NesHeaderValid] at hv
  obtain ⟨hp1, hp2, hc1, hc2, hrest⟩ := hv
  cases n2 <;> cases bat <;> cases mir <;> rcases sub with _ | s <;>
    obtain ⟨hm, hs⟩ := hrest <;>
    (try simp only [Option.getD_some, Option.getD_none] at hs) <;>
    dsimp only [build_nes_header] <;>
    simp only [parse_nes_header_bytes] <;>
    rw [if_neg (by simp [nesMagic])] <;>
    simp only [Option.some.injEq, NesHeader.mk.injEq, decide_eq_true_eq,
      decide_eq_false_iff_not] <;>
    refine ⟨by omega, by omega, by omega, ?_, ?_, by omega, by omega, ?_⟩
  all_goals
    (try simp only [Option.getD_none, Option.getD_some]) <;>
    first
      | (exact Option.noConfusion hs)
      | omega
      | (split_ifs <;>
          first
            | rfl
            | omega
            | (simp only [Option.some.injEq]; omega)
            | (exact Option.noConfusion hs)
            | (exfalso; omega))

/-- Witness for C7 at a concrete valid header.  The input header has the
trainer flag set, and the round-trip returns it with the flag cleared. -/
theorem C7_parse_build_roundtrip_witness :
    NesHeaderValid
      { prg_rom_size := 32768, chr_rom_size := 8192, has_trainer := true,
        mapper := 4, mirroring := .vertical, has_battery := true,
        is_nes2 := false, submapper := none } ∧
    parse_nes_header_bytes (build_nes_header
      { prg_rom_size := 32768, chr_rom_size := 8192, has_trainer := true,
        mapper := 4, mirroring := .vertical, has_battery := true,
        is_nes2 := false, submapper := none }) =
      some ({ prg_rom_size := 32768, chr_rom_size := 8192,
              has_trainer := false, mapper := 4, mirroring := .vertical,
              has_battery := true, is_nes2 := false,
              submapper := none } : NesHeader) := by
  refine ⟨⟨by decide, by decide, by decide, by decide, by decide, rfl⟩, ?_⟩
  exact C7_parse_build_roundtrip _
    ⟨by decide, by decide, by decide, by decide, by decide, rfl⟩

/-! ## Diff codec (`src/diff/bsdiff.rs`, spec §4.2)

`create_diff`/`apply_diff` in `src/diff/bsdiff.rs` delegate the encoding to
the external `bsdiff` crate (`bsdiff::diff` / `bsdiff::patch`), whose source
is not part of this repository.  The codec is therefore modelled from the
spec: a patch is a sequence of records, each holding an *add* block (a
byte-wise wrapping delta over a window of `old`), an *extra* block (literal
insert), and a seek adjustment of the old-file cursor.  Applying a record
emits `old[pos+i] + diffData[i] (mod 256)` for each delta byte (out-of-range
reads contribute `0`, as in bsdiff), then the extra bytes, then moves the
cursor.  The spec fixes the contract `apply(old, diff(old,new)) == new` and
explicitly leaves the encoder's record choice implementation-defined, so the
encoder below is a valid single-record encoder.  Bytes are `Nat` values
`< 256`; wrapping `u8` arithmetic is explicit `% 256`. -/

/-- Modelled from the spec: one control record of a bsdiff-style patch
(spec §4.2, "a sequence of `(add, copy, extra)` records, where `add` is a
byte-wise delta over a matched window and `extra` is literal insert"). -/
structure BsdiffRecord where
  diffData : List Nat
  extraData : List Nat
  seek : Int
deriving Repr, DecidableEq

/-- The byte of `old` at (possibly negative or out-of-range) cursor
position `i`; out-of-range reads contribute `0` to the add block. -/
def oldAt (old : List Nat) (i : Int) : Nat :=
  if h : 0 ≤ i ∧ i.toNat < old.length then old.get ⟨i.toNat, h.2⟩ else 0

/-- Emit the add block of a record: each output byte is the wrapping `u8`
sum of the old byte under the cursor and the delta byte. -/
def applyAdd (old : List Nat) : Int → List Nat → List Nat
  | _, [] => []
  | pos, d :: ds => (oldAt old pos + d) % 256 :: applyAdd old (pos + 1) ds

/-- Apply the records of a patch in order, threading the old-file cursor. -/
def applyRecords (old : List Nat) : Int → List BsdiffRecord → List Nat
  | _, [] => []
  | pos, r :: rs =>
    applyAdd old pos r.diffData ++ r.extraData ++
      applyRecords old (pos + r.diffData.length + r.seek) rs

/-- Modelled from the spec: `apply(old, patch) → new` (§4.2).  The cursor
starts at offset `0` of `old`. -/
def apply_diff (old : List Nat) (patch : List BsdiffRecord) : List Nat :=
  applyRecords old 0 patch

/-- Modelled from the spec: `diff(old, new) → patch` (§4.2).  A valid
single-record encoder: the add block covers the common prefix window with
the wrapping byte-wise delta `new[i] - old[i] (mod 256)`, and the remainder
of `new` is emitted as the extra block. -/
def create_diff (old new : List Nat) : List BsdiffRecord :=
  [{ diffData := List.zipWith (fun n o => (n + 256 - o) % 256) new old
     extraData := new.drop old.length
     seek := 0 }]

theorem oldAt_cons (b : Nat) (old : List Nat) (pos : Int) (hpos : 0 ≤ pos) :
    oldAt (b :: old) (pos + 1) = oldAt old pos := by
  unfold oldAt
  have h2 : (pos + 1).toNat = pos.toNat + 1 := by omega
  by_cases hlt : pos.toNat < old.length
  · rw [dif_pos ⟨by omega, by simp only [List.length_cons]; omega⟩,
      dif_pos ⟨hpos, hlt⟩]
    simp only [h2, List.get_cons_succ]
  · rw [dif_neg (fun hc => hlt
        (by simp only [List.length_cons] at hc; omega)),
      dif_neg (fun hc => hlt hc.2)]

theorem applyAdd_cons (b : Nat) (old : List Nat) (pos : Int) (hpos : 0 ≤ pos)
    (ds : List Nat) :
    applyAdd (b :: old) (pos + 1) ds = applyAdd old pos ds := by
  induction ds generalizing pos with
  | nil => rfl
  | cons d ds ih =>
    simp only [applyAdd, oldAt_cons b old pos hpos]
    rw [ih (pos + 1) (by omega)]

theorem applyAdd_zipWith_sub (new old : List Nat)
    (hnew : ∀ b ∈ new, b < 256) (hold : ∀ b ∈ old, b < 256) :
    applyAdd old 0 (List.zipWith (fun n o => (n + 256 - o) % 256) new old) =
      new.take old.length := by
  induction new generalizing old with
  | nil => simp [applyAdd]
  | cons n new ih =>
    cases old with
    | nil => simp [applyAdd]
    | cons o old =>
      have hn : n < 256 := hnew n (by simp)
      have ho : o < 256 := hold o (by simp)
      simp only [List.zipWith_cons_cons, applyAdd, List.length_cons,
        List.take_succ_cons]
      rw [show oldAt (o :: old) 0 = o by simp [oldAt]]
      rw [show (o + (n + 256 - o) % 256) % 256 = n by omega]
      rw [applyAdd_cons o old 0 (le_refl 0)]
      rw [ih old (fun b hb => hnew b (by simp [hb]))
        (fun b hb => hold b (by simp [hb]))]

/-- C3: the diff codec round-trips: applying the patch produced by
`create_diff old new` to `old` reconstructs `new` byte-exactly, for all
byte sequences `old` and `new`. -/
theorem C3_diff_roundtrip (old new : List Nat)
    (hold : ∀ b ∈ old, b < 256) (hnew : ∀ b ∈ new, b < 256) :
    apply_diff old (create_diff old new) = new := by
  unfold apply_diff create_diff
  simp only [applyRecords, List.append_nil]
  rw [applyAdd_zipWith_sub new old hnew hold]
  exact List.take_append_drop old.length new

/-- Witness for C3 at concrete byte sequences (a shortened old file, a
changed byte, and appended extra bytes are all exercised). -/
theorem C3_diff_roundtrip_witness :
    ((∀ b ∈ [1, 2, 3], b < 256) ∧ (∀ b ∈ [0, 170, 255, 7], b < 256)) ∧
    apply_diff [1, 2, 3] (create_diff [1, 2, 3] [0, 170, 255, 7]) =
      [0, 170, 255, 7] :=
  ⟨⟨by decide, by decide⟩,
    C3_diff_roundtrip [1, 2, 3] [0, 170, 255, 7] (by decide) (by decide)⟩

/-! ## Error taxonomy (`src/error.rs`)

Only the variants reachable in the modelled operations are included.
`DiffAlreadyExists(String, String)` is constructed from
`source_id.to_string()` / `target_id.to_string()`, so it is modelled with
the two ids. -/

inductive DromosError where
  | io (msg : String)
  | invalidNesFile (path : String)
  | unsupportedRomType (extension : String)
  | romNotFound (hash : Nat)
  | romAlreadyExists (hash : Nat)
  | diffAlreadyExists (source_id target_id : Nat)
  | diffApplication (msg : String)
  | noPath (fromHash toHash : Nat)
  | importError (msg : String)
deriving DecidableEq, Repr

/-! ## Repository (`src/db/repository.rs`)

The relational store is modelled as lists of rows plus the
`last_insert_rowid` counters.  A SHA-256 value (`[u8; 32]` in the code,
stored as its 64-char hex encoding, which is a bijection) is modelled as an
abstract `Nat`.  The `tags` column stores a JSON array string (`None` when
the list is empty); since `serde_json` round-trips string lists exactly, the
serialized form is modelled as the list itself, wrapped in `Option` exactly
where the code stores SQL `NULL`. -/

/-- Abstract model of a SHA-256 value / its hex-64 string. -/
abbrev Sha256 := Nat

/-- A diff file name `"<src hash 16-hex>_<tgt hash 16-hex>.bsdiff"`
(`StorageManager::link_nodes`), modelled as the pair of hashes (the 16-char
truncation is a prefix of the hex encoding; prefix collisions between
distinct hashes are out of scope). -/
abbrev DiffName := Sha256 × Sha256

/-- `RomType` from `src/rom/types.rs` (only NES exists). -/
inductive RomType where
  | nes
deriving DecidableEq, Repr

/-- `RomType::as_str`. -/
def RomType.as_str : RomType → String
  | .nes => "NES"

/-- `impl FromStr for RomType` (case-insensitive `"NES"`). -/
def RomType.fromStr (s : String) : Option RomType :=
  if s.toUpper = "NES" then some .nes else none

/-- `NodeMetadata` from `src/db/repository.rs` (user-editable fields). -/
structure NodeMetadata where
  title : String
  source_url : Option String
  version : Option String
  release_date : Option String
  tags : List String
  description : Option String
deriving DecidableEq, Repr

/-- `RomMetadata` from `src/rom/types.rs`. -/
structure RomMetadata where
  rom_type : RomType
  sha256 : Sha256
  filename : Option String
  nes_header : Option NesHeader
  source_file_header : Option (List Nat)
deriving DecidableEq, Repr

/-- A persisted row of the `nodes` table, with exactly the columns bound by
the `INSERT INTO nodes (...)` statement of `Repository::insert_node`, plus
the `id` primary key. -/
structure StoredNode where
  id : Nat
  sha256 : Sha256
  filename : Option String
  title : String
  rom_type : String
  prg_rom_size : Option Nat
  chr_rom_size : Option Nat
  has_trainer : Option Bool
  mapper : Option Nat
  mirroring : Option Nat
  has_battery : Option Bool
  is_nes2 : Option Bool
  nes2_submapper : Option Nat
  source_url : Option String
  version : Option String
  release_date : Option String
  tags : Option (List String)
  description : Option String
deriving DecidableEq, Repr

/-- `EdgeRow` from `src/db/repository.rs`. -/
structure EdgeRow where
  id : Nat
  source_id : Nat
  target_id : Nat
  diff_path : DiffName
  diff_size : Int
deriving DecidableEq, Repr

/-- The relational store: the two tables plus rowid counters. -/
structure Db where
  nodes : List StoredNode
  edges : List EdgeRow
  nextNodeId : Nat
  nextEdgeId : Nat
deriving DecidableEq, Repr

def emptyDb : Db := { nodes := [], edges := [], nextNodeId := 1, nextEdgeId := 1 }

/-- `NodeRow` from `src/db/repository.rs`.  Note: this struct has *no*
`source_file_header` field in the source (see the C2 theorem). -/
structure NodeRow where
  id : Nat
  sha256 : Sha256
  filename : Option String
  title : String
  rom_type : RomType
  prg_rom_size : Option Nat
  chr_rom_size : Option Nat
  has_trainer : Option Bool
  mapper : Option Nat
  mirroring : Option Mirroring
  has_battery : Option Bool
  is_nes2 : Option Bool
  submapper : Option Nat
  source_url : Option String
  version : Option String
  release_date : Option String
  tags : List String
  description : Option String
deriving DecidableEq, Repr

/-- `map_row_to_node_row` from `src/db/repository.rs`: converts the stored
column values to a `NodeRow` (`rom_type_str.parse().unwrap_or(RomType::Nes)`,
`Mirroring::from(m as u8)`, tags JSON parsed with empty default). -/
def map_row_to_node_row (sn : StoredNode) : NodeRow :=
  { id := sn.id
    sha256 := sn.sha256
    filename := sn.filename
    title := sn.title
    rom_type := (RomType.fromStr sn.rom_type).getD .nes
    prg_rom_size := sn.prg_rom_size
    chr_rom_size := sn.chr_rom_size
    has_trainer := sn.has_trainer
    mapper := sn.mapper
    mirroring := sn.mirroring.map Mirroring.fromU8
    has_battery := sn.has_battery
    is_nes2 := sn.is_nes2
    submapper := sn.nes2_submapper
    source_url := sn.source_url
    version := sn.version
    release_date := sn.release_date
    tags := sn.tags.getD []
    description := sn.description }

/-- `Repository::get_node_by_hash` (`SELECT … FROM nodes WHERE sha256 = ?`).
Database I/O errors are outside the model, so the `Result` wrapper is
dropped. -/
def get_node_by_hash (db : Db) (sha256 : Sha256) : Option NodeRow :=
  (db.nodes.find? (fun n => n.sha256 == sha256)).map map_row_to_node_row

/-- `Repository::get_node_by_id`. -/
def get_node_by_id (db : Db) (id : Nat) : Option NodeRow :=
  (db.nodes.find? (fun n => n.id == id)).map map_row_to_node_row

/-- `Repository::insert_node`: duplicate-hash check, then the
`INSERT INTO nodes (sha256, filename, title, rom_type, prg_rom_size,
chr_rom_size, has_trainer, mapper, mirroring, has_battery, is_nes2,
nes2_submapper, source_url, version, release_date, tags, description)` with
values taken from `metadata.nes_header` and `node_metadata`.  Returns
`last_insert_rowid`. -/
def insert_node (db : Db) (metadata : RomMetadata)
    (node_metadata : NodeMetadata) : Except DromosError (Nat × Db) :=
  if (get_node_by_hash db metadata.sha256).isSome then
    .error (.romAlreadyExists metadata.sha256)
  else
    let hdr := metadata.nes_header
    let tags_json :=
      if node_metadata.tags.isEmpty then none else some node_metadata.tags
    let row : StoredNode := {
      id := db.nextNodeId
      sha256 := metadata.sha256
      filename := metadata.filename
      title := node_metadata.title
      rom_type := metadata.rom_type.as_str
      prg_rom_size := hdr.map (fun h => h.prg_rom_size)
      chr_rom_size := hdr.map (fun h => h.chr_rom_size)
      has_trainer := hdr.map (fun h => h.has_trainer)
      mapper := hdr.map (fun h => h.mapper)
      mirroring := hdr.map (fun h => h.mirroring.toNat)
      has_battery := hdr.map (fun h => h.has_battery)
      is_nes2 := hdr.map (fun h => h.is_nes2)
      nes2_submapper := hdr.bind (fun h => h.submapper)
      source_url := node_metadata.source_url
      version := node_metadata.version
      release_date := node_metadata.release_date
      tags := tags_json
      description := node_metadata.description }
    .ok (db.nextNodeId,
      { db with nodes := db.nodes ++ [row], nextNodeId := db.nextNodeId + 1 })

/-- `Repository::insert_edge`: uniqueness check on `(source_id, target_id)`
then the `INSERT INTO edges (...)`. -/
def insert_edge (db : Db) (source_id target_id : Nat) (diff_path : DiffName)
    (diff_size : Int) : Except DromosError (Nat × Db) :=
  if db.edges.any
      (fun e => e.source_id == source_id && e.target_id == target_id) then
    .error (.diffAlreadyExists source_id target_id)
  else
    .ok (db.nextEdgeId,
      { db with
        edges := db.edges ++
          [{ id := db.nextEdgeId, source_id := source_id,
             target_id := target_id, diff_path := diff_path,
             diff_size := diff_size }]
        nextEdgeId := db.nextEdgeId + 1 })

/-- `Repository::get_edges_for_node`
(`WHERE source_id = ?1 OR target_id = ?1`). -/
def get_edges_for_node (db : Db) (node_id : Nat) : List EdgeRow :=
  db.edges.filter (fun e => e.source_id == node_id || e.target_id == node_id)

/-- `Repository::delete_node`: first deletes all incident edges, then the
node. -/
def delete_node (db : Db) (node_id : Nat) : Db :=
  { db with
    edges := db.edges.filter
      (fun e => !(e.source_id == node_id || e.target_id == node_id))
    nodes := db.nodes.filter (fun n => !(n.id == node_id)) }

/-- `Repository::update_node_metadata`: `UPDATE nodes SET title, source_url,
version, release_date, tags, description WHERE id = ?`. -/
def update_node_metadata (db : Db) (node_id : Nat)
    (metadata : NodeMetadata) : Db :=
  let tags_json := if metadata.tags.isEmpty then none else some metadata.tags
  { db with nodes := db.nodes.map (fun r =>
      if r.id = node_id then
        { r with
          title := metadata.title
          source_url := metadata.source_url
          version := metadata.version
          release_date := metadata.release_date
          tags := tags_json
          description := metadata.description }
      else r) }

/-- C9: `update_node_metadata` is the identity on the edges table and, row
by row, replaces exactly the six user fields of rows whose `id` matches
while leaving every identity/header field of those rows and every other row
entirely unchanged. -/
theorem C9_update_node_metadata_frame (db : Db) (node_id : Nat)
    (nm : NodeMetadata) :
    List.Forall₂ (fun r r' =>
      (r'.id = r.id ∧ r'.sha256 = r.sha256 ∧ r'.filename = r.filename ∧
        r'.rom_type = r.rom_type ∧ r'.prg_rom_size = r.prg_rom_size ∧
        r'.chr_rom_size = r.chr_rom_size ∧ r'.has_trainer = r.has_trainer ∧
        r'.mapper = r.mapper ∧ r'.mirroring = r.mirroring ∧
        r'.has_battery = r.has_battery ∧ r'.is_nes2 = r.is_nes2 ∧
        r'.nes2_submapper = r.nes2_submapper) ∧
      (r.id ≠ node_id → r' = r) ∧
      (r.id = node_id →
        r'.title = nm.title ∧ r'.source_url = nm.source_url ∧
        r'.version = nm.version ∧ r'.release_date = nm.release_date ∧
        r'.tags = (if nm.tags.isEmpty then none else some nm.tags) ∧
        r'.description = nm.description))
      db.nodes (update_node_metadata db node_id nm).nodes ∧
    (update_node_metadata db node_id nm).edges = db.edges := by
  unfold update_node_metadata
  refine ⟨?_, rfl⟩
  rw [List.forall₂_map_right_iff]
  rw [List.forall₂_same]
  intro r _
  by_cases h : r.id = node_id
  · rw [if_pos h]
    refine ⟨⟨rfl, rfl, rfl, rfl, rfl, rfl, rfl, rfl, rfl, rfl, rfl, rfl⟩,
      fun hne => absurd h hne, fun _ => ⟨rfl, rfl, rfl, rfl, rfl, rfl⟩⟩
  · rw [if_neg h]
    exact ⟨⟨rfl, rfl, rfl, rfl, rfl, rfl, rfl, rfl, rfl, rfl, rfl, rfl⟩,
      fun _ => rfl, fun he => absurd he h⟩

/-- The 17 column names bound by the `INSERT INTO nodes (...)` statement of
`Repository::insert_node` in `src/db/repository.rs`, verbatim. -/
def insertNodeColumns : List String :=
  ["sha256", "filename", "title", "rom_type", "prg_rom_size", "chr_rom_size",
   "has_trainer", "mapper", "mirroring", "has_battery", "is_nes2",
   "nes2_submapper", "source_url", "version", "release_date", "tags",
   "description"]

/-- C2 (code bug evidence): `Repository::insert_node` never persists the
raw header bytes — the insert statement has no `source_file_header` column,
and the resulting store is bit-for-bit independent of
`metadata.source_file_header`.  Consequently retrieval cannot return the
raw header bytes (`NodeRow` has no such field).  This contradicts the spec
schema (§4.3), `ExportNode::from_node_row` (`src/exchange/format.rs`),
`cmd_build` (`src/cli/repl.rs`), and the `RomMetadata` produced by
`hash_rom_file` (`src/rom/hash.rs`), which all carry the field. -/
theorem C2_insert_node_drops_source_file_header :
    "source_file_header" ∉ insertNodeColumns ∧
    ∀ (db : Db) (m : RomMetadata) (nm : NodeMetadata)
      (raw : Option (List Nat)),
      insert_node db { m with source_file_header := raw } nm =
        insert_node db m nm :=
  ⟨by decide, fun _ _ _ _ => rfl⟩

/-! ## In-memory graph (`src/graph/store.rs`)

`RomGraph` wraps a `petgraph::StableGraph` with hash and db-id indexes.
Node handles (`NodeIndex`) are modelled by the node's SHA-256 value: under
the engine's invariants the hash index `sha256 → NodeIndex` is a bijection
onto the live handles, so edges are recorded between hash-identified
vertices.  Edge iteration order in the model is list order; no claim
depends on the tie-breaking order of equal-length paths. -/

/-- `DiffEdge` from `src/graph/store.rs`. -/
structure DiffEdgeData where
  db_id : Nat
  diff_path : DiffName
  diff_size : Int
deriving DecidableEq, Repr

/-- A directed edge of the graph: endpoints are node handles (hashes). -/
structure GEdge where
  src : Nat
  tgt : Nat
  data : DiffEdgeData
deriving DecidableEq, Repr

/-- `PathStep` from `src/graph/store.rs`: a node of the path together with
the edge used to *reach* it (`none` for the source node). -/
structure PathStep where
  node : Nat
  edge : Option DiffEdgeData
deriving DecidableEq, Repr

/-- The outgoing edges of `v` (`self.graph.edges(current)`). -/
def outEdges (edges : List GEdge) (v : Nat) : List GEdge :=
  edges.filter (fun e => e.src == v)

/-- The BFS bookkeeping of `RomGraph::find_path`: `visited` maps each node
to `(previous node, edge used to reach it)`; kept in insertion order. -/
abbrev Visited := List (Nat × Nat × DiffEdgeData)

/-- The inner `for edge_ref in self.graph.edges(current)` loop of
`RomGraph::find_path`: skips neighbors already visited or equal to the
source, otherwise records them; returns `true` (early `return`) when the
target is discovered, leaving the queue as it stood. -/
def processEdges (source target current : Nat) :
    List GEdge → Visited → List Nat → Visited × List Nat × Bool
  | [], vis, queue => (vis, queue, false)
  | e :: es, vis, queue =>
    if (vis.lookup e.tgt).isSome || e.tgt == source then
      processEdges source target current es vis queue
    else
      let vis' := vis ++ [(e.tgt, (current, e.data))]
      if e.tgt == target then (vis', queue, true)
      else processEdges source target current es vis' (queue ++ [e.tgt])

/-- The backtracking loop of `RomGraph::reconstruct_path`, accumulator
style (the code pushes then reverses; prepending is the same).  The `fuel`
bounds the `while current != source` loop; under the BFS invariants a fuel
of `visited.length + 1` never runs out, and the `visited.get(&current)
.unwrap()` panic branch is unreachable. -/
def reconsAux (source : Nat) (vis : Visited) :
    Nat → Nat → List PathStep → List PathStep
  | 0, _, acc => acc
  | fuel + 1, current, acc =>
    if current == source then ⟨source, none⟩ :: acc
    else
      match vis.lookup current with
      | none => acc
      | some (prev, edge) =>
        reconsAux source vis fuel prev (⟨current, some edge⟩ :: acc)

/-- `RomGraph::reconstruct_path`. -/
def reconstruct_path (source target : Nat) (vis : Visited) : List PathStep :=
  reconsAux source vis (vis.length + 1) target []

/-- The `while let Some(current) = queue.pop_front()` loop of
`RomGraph::find_path`.  The `fuel` bounds the number of pops: each pop
beyond the initial source was enqueued together with a fresh `visited`
insertion, the inserted keys are distinct targets of edges, so at most
`edges.length + 1` pops occur and `edges.length + 2` fuel never runs
out. -/
def bfsLoop (edges : List GEdge) (source target : Nat) :
    Nat → Visited → List Nat → Option (List PathStep)
  | 0, _, _ => none
  | fuel + 1, vis, queue =>
    match queue with
    | [] => none
    | current :: rest =>
      match processEdges source target current (outEdges edges current)
          vis rest with
      | (vis', _, true) => some (reconstruct_path source target vis')
      | (vis', queue', false) =>
        bfsLoop edges source target fuel vis' queue'

/-- `RomGraph::find_path`: BFS over outgoing edges; `source == target`
short-circuits to the single-node path. -/
def find_path (edges : List GEdge) (source target : Nat) :
    Option (List PathStep) :=
  if source == target then some [⟨source, none⟩]
  else bfsLoop edges source target (edges.length + 2) [] [source]

/-- `RomNode` from `src/graph/store.rs`. -/
structure RomNode where
  db_id : Nat
  sha256 : Sha256
  filename : Option String
  title : String
  version : Option String
  rom_type : RomType
deriving DecidableEq, Repr

/-- The in-memory `RomGraph` (nodes plus directed edges between
hash-identified vertices). -/
structure RomGraph where
  nodes : List RomNode
  edges : List GEdge
deriving DecidableEq, Repr

/-- `RomGraph::get_node_by_hash` composed with `get_node` (the hash
index resolves a handle, then the weight is read). -/
def graphNodeByHash (g : RomGraph) (sha256 : Sha256) : Option RomNode :=
  g.nodes.find? (fun n => n.sha256 == sha256)

/-- `RomGraph::get_node_by_db_id` composed with `get_node`. -/
def graphNodeByDbId (g : RomGraph) (db_id : Nat) : Option RomNode :=
  g.nodes.find? (fun n => n.db_id == db_id)

/-- `RomGraph::remove_node`: removes the node, purges both indexes, and
(`StableGraph::remove_node`) drops every incident edge. -/
def graphRemoveNode (g : RomGraph) (sha256 : Sha256) : RomGraph :=
  { nodes := g.nodes.filter (fun n => !(n.sha256 == sha256))
    edges := g.edges.filter
      (fun e => !(e.src == sha256 || e.tgt == sha256)) }

/-! ## Storage manager (`src/storage/manager.rs`)

The manager owns the database, the graph mirror, and the `diffs/`
directory.  Diff files are modelled as an association list from file name
to patch content; `File::create` truncates, so writing an existing name
replaces the content and leaves the name set unchanged.  Rust panics
(`expect`/`unwrap`) are a distinct outcome from typed errors. -/

/-- The result of a fallible manager operation: `ok`, a typed
`DromosError`, or a Rust panic with the `expect` message. -/
inductive Outcome (α : Type) where
  | ok (value : α)
  | error (e : DromosError)
  | panicked (msg : String)
deriving DecidableEq, Repr

/-- The files in `diffs/`: name ↦ patch content. -/
abbrev DiffFiles := List (DiffName × List BsdiffRecord)

/-- `File::create` + write: truncate if present, else create. -/
def writeDiffFile (files : DiffFiles) (name : DiffName)
    (patch : List BsdiffRecord) : DiffFiles :=
  if files.any (fun f => f.1 == name) then
    files.map (fun f => if f.1 == name then (name, patch) else f)
  else files ++ [(name, patch)]

/-- The byte length of an encoded patch (`patch.len()` in
`create_diff`) — the record data lengths, for the model encoder. -/
def patchSize (patch : List BsdiffRecord) : Int :=
  patch.foldl
    (fun acc r => acc + (r.diffData.length : Int) + r.extraData.length) 0

/-- `dromos::diff::create_diff(old, new, diff_path)`: encode, write the
patch file, return its size. -/
def create_diff_file (files : DiffFiles) (old new : List Nat)
    (name : DiffName) : DiffFiles × Int :=
  let patch := create_diff old new
  (writeDiffFile files name patch, patchSize patch)

/-- `dromos::diff::apply_diff(old, diff_path)`: read the patch file, apply
it.  A missing file is the `File::open` I/O error. -/
def apply_diff_file (files : DiffFiles) (old : List Nat)
    (name : DiffName) : Except DromosError (List Nat) :=
  match files.find? (fun f => f.1 == name) with
  | none => .error (.io "diff file not found")
  | some f => .ok (apply_diff old f.2)

/-- The file system holding the user's ROM files: path ↦ (body bytes,
parsed metadata).  `read_rom_bytes`/`hash_rom_file` strip the header and
trainer and hash the body; their agreement on a path is packaged here. -/
structure RomFile where
  bytes : List Nat
  metadata : RomMetadata
deriving DecidableEq, Repr

abbrev FileSys := List (String × RomFile)

/-- `read_rom_bytes` (`src/rom/hash.rs`) for a path of the modelled file
system; a missing path is the `File::open` I/O error. -/
def read_rom_bytes (fs : FileSys) (path : String) :
    Except DromosError (List Nat) :=
  match fs.find? (fun f => f.1 == path) with
  | none => .error (.io path)
  | some f => .ok f.2.bytes

/-- `hash_rom_file` (`src/rom/hash.rs`) for a path of the modelled file
system. -/
def hash_rom_file (fs : FileSys) (path : String) :
    Except DromosError RomMetadata :=
  match fs.find? (fun f => f.1 == path) with
  | none => .error (.io path)
  | some f => .ok f.2.metadata

/-- The state owned by `StorageManager`: connection (database), graph, and
the `diffs/` directory. -/
structure EngineState where
  db : Db
  graph : RomGraph
  diffFiles : DiffFiles
deriving DecidableEq, Repr

/-- `StorageManager::link_nodes`: read both files, hash both, `expect`
both nodes in the database, write the two patch files, insert the two edge
rows, then mirror both edges into the graph.  State changes made before an
error persist (the Rust `?` returns early but the files are already on
disk). -/
def link_nodes (fs : FileSys) (st : EngineState) (path_a path_b : String) :
    EngineState × Outcome (Int × Int) :=
  match read_rom_bytes fs path_a with
  | .error e => (st, .error e)
  | .ok bytes_a =>
  match read_rom_bytes fs path_b with
  | .error e => (st, .error e)
  | .ok bytes_b =>
  match hash_rom_file fs path_a with
  | .error e => (st, .error e)
  | .ok metadata_a =>
  match hash_rom_file fs path_b with
  | .error e => (st, .error e)
  | .ok metadata_b =>
  match get_node_by_hash st.db metadata_a.sha256 with
  | none => (st, .panicked "Node A must exist in database")
  | some node_a =>
  match get_node_by_hash st.db metadata_b.sha256 with
  | none => (st, .panicked "Node B must exist in database")
  | some node_b =>
    let name_ab : DiffName := (metadata_a.sha256, metadata_b.sha256)
    let (files1, size_ab) :=
      create_diff_file st.diffFiles bytes_a bytes_b name_ab
    let name_ba : DiffName := (metadata_b.sha256, metadata_a.sha256)
    let (files2, size_ba) := create_diff_file files1 bytes_b bytes_a name_ba
    let st2 := { st with diffFiles := files2 }
    match insert_edge st2.db node_a.id node_b.id name_ab size_ab with
    | .error e => (st2, .error e)
    | .ok (_, db1) =>
    match insert_edge db1 node_b.id node_a.id name_ba size_ba with
    | .error e => ({ st2 with db := db1 }, .error e)
    | .ok (_, db2) =>
      let g := st2.graph
      let g' :=
        if (graphNodeByDbId g node_a.id).isSome &&
            (graphNodeByDbId g node_b.id).isSome then
          { g with edges := g.edges ++
            [{ src := metadata_a.sha256, tgt := metadata_b.sha256,
               data := { db_id := 0, diff_path := name_ab,
                         diff_size := size_ab } },
             { src := metadata_b.sha256, tgt := metadata_a.sha256,
               data := { db_id := 0, diff_path := name_ba,
                         diff_size := size_ba } }] }
        else g
      ({ st2 with db := db2, graph := g' }, .ok (size_ab, size_ba))

/-- `RemoveResult` from `src/storage/manager.rs`. -/
structure RemoveResult where
  title : String
  edges_removed : Nat
  diff_files_removed : Nat
deriving DecidableEq, Repr

/-- The per-edge `fs::remove_file` loop of `StorageManager::remove_node`:
deletes each edge's patch file, counting successes; missing files are
warnings. -/
def deleteDiffFiles (files : DiffFiles) :
    List EdgeRow → DiffFiles × Nat
  | [] => (files, 0)
  | e :: rest =>
    let hit := files.any (fun f => f.1 == e.diff_path)
    let files1 := files.filter (fun f => !(f.1 == e.diff_path))
    let (files2, n) := deleteDiffFiles files1 rest
    (files2, (if hit then 1 else 0) + n)

/-- `StorageManager::remove_node`: `expect` the node row, enumerate
incident edges, delete their diff files (missing = warning), delete edges
and node from the database, remove the node from the graph. -/
def remove_node (st : EngineState) (sha256 : Sha256) :
    EngineState × Outcome RemoveResult :=
  match get_node_by_hash st.db sha256 with
  | none => (st, .panicked "Node must exist in database")
  | some node_row =>
    let edges := get_edges_for_node st.db node_row.id
    let (files', removed) := deleteDiffFiles st.diffFiles edges
    let db' := delete_node st.db node_row.id
    let g' :=
      match graphNodeByHash st.graph sha256 with
      | some _ => graphRemoveNode st.graph sha256
      | none => st.graph
    ({ db := db', graph := g', diffFiles := files' },
      .ok { title := node_row.title, edges_removed := edges.length,
            diff_files_removed := removed })

/-! ### Opening the store (`StorageManager::open`, `src/db/schema.rs`) -/

/-- `DATA_REVISION` from `src/db/schema.rs`. -/
def DATA_REVISION : Nat := 1

/-- What `StorageManager::open` observes on disk before deciding whether to
wipe: whether the database file exists, `get_stored_data_revision`,
`has_existing_data` (a `nodes` table exists), the persisted tables, and the
entries of `diffs/` (`file_type().is_file()` flag per entry). -/
structure OpenEnv where
  dbExists : Bool
  storedRevision : Option Nat
  hasNodesTable : Bool
  dbNodes : List StoredNode
  dbEdges : List EdgeRow
  diffEntries : List (DiffName × Bool)
deriving DecidableEq, Repr

/-- The wipe decision of `StorageManager::open`:
`Some(rev) => rev < DATA_REVISION, None => has_data`. -/
def needsWipe (env : OpenEnv) : Bool :=
  match env.storedRevision with
  | some rev => decide (rev < DATA_REVISION)
  | none => env.hasNodesTable

/-- The data `StorageManager::load_graph_from_db` caches per node row. -/
def rowToRomNode (sn : StoredNode) : RomNode :=
  let r := map_row_to_node_row sn
  { db_id := r.id, sha256 := r.sha256, filename := r.filename,
    title := r.title, version := r.version, rom_type := r.rom_type }

/-- The edge-loading loop of `load_graph_from_db`: edges whose endpoints do
not resolve by db id are skipped. -/
def loadGraphEdges (nodes : List StoredNode) (edges : List EdgeRow) :
    List GEdge :=
  edges.filterMap (fun e =>
    match nodes.find? (fun n => n.id == e.source_id),
        nodes.find? (fun n => n.id == e.target_id) with
    | some s, some t =>
      some { src := s.sha256, tgt := t.sha256,
             data := { db_id := e.id, diff_path := e.diff_path,
                       diff_size := e.diff_size } }
    | _, _ => none)

/-- The state `StorageManager::open` leaves behind: database tables, graph
mirror, `diffs/` entries, and the revision recorded by
`set_data_revision`. -/
structure OpenResult where
  dbNodes : List StoredNode
  dbEdges : List EdgeRow
  graphNodes : List RomNode
  graphEdges : List GEdge
  diffEntries : List (DiffName × Bool)
  recordedRevision : Nat
deriving DecidableEq, Repr

/-- `StorageManager::open`: if the database file exists and the revision
gate fires, delete the database file and every regular file in `diffs/`;
then open (or create fresh), run the migrations, record `DATA_REVISION`,
and load the graph from the database. -/
def openStore (env : OpenEnv) : OpenResult :=
  let wiped := env.dbExists && needsWipe env
  let nodes := if env.dbExists && !needsWipe env then env.dbNodes else []
  let edges := if env.dbExists && !needsWipe env then env.dbEdges else []
  let diffEntries :=
    if wiped then env.diffEntries.filter (fun e => !e.2)
    else env.diffEntries
  { dbNodes := nodes
    dbEdges := edges
    graphNodes := nodes.map rowToRomNode
    graphEdges := loadGraphEdges nodes edges
    diffEntries := diffEntries
    recordedRevision := DATA_REVISION }

/-- C4: the revision gate of `open`.  If the store exists and its recorded
revision is below `DATA_REVISION` — or it has no recorded revision but a
`nodes` table — `open` deletes the database and every regular file in
`diffs/` and yields an engine with no nodes and no edges, recording the new
revision.  Otherwise every table, every `diffs/` entry, and the loaded
graph reflect the existing data unchanged. -/
theorem C4_open_revision_gate (env : OpenEnv) (hex : env.dbExists = true) :
    ((∀ rev, env.storedRevision = some rev → rev < DATA_REVISION →
        openStore env =
          { dbNodes := [], dbEdges := [], graphNodes := [],
            graphEdges := [],
            diffEntries := env.diffEntries.filter (fun e => !e.2),
            recordedRevision := DATA_REVISION }) ∧
      (env.storedRevision = none → env.hasNodesTable = true →
        openStore env =
          { dbNodes := [], dbEdges := [], graphNodes := [],
            graphEdges := [],
            diffEntries := env.diffEntries.filter (fun e => !e.2),
            recordedRevision := DATA_REVISION })) ∧
    ((∀ rev, env.storedRevision = some rev → ¬rev < DATA_REVISION →
        openStore env =
          { dbNodes := env.dbNodes, dbEdges := env.dbEdges,
            graphNodes := env.dbNodes.map rowToRomNode,
            graphEdges := loadGraphEdges env.dbNodes env.dbEdges,
            diffEntries := env.diffEntries,
            recordedRevision := DATA_REVISION }) ∧
      (env.storedRevision = none → env.hasNodesTable = false →
        openStore env =
          { dbNodes := env.dbNodes, dbEdges := env.dbEdges,
            graphNodes := env.dbNodes.map rowToRomNode,
            graphEdges := loadGraphEdges env.dbNodes env.dbEdges,
            diffEntries := env.diffEntries,
            recordedRevision := DATA_REVISION })) := by
  refine ⟨⟨?_, ?_⟩, ?_, ?_⟩
  · intro rev hsr hlt
    have hw : needsWipe env = true := by
      simp [needsWipe, hsr, hlt]
    simp [openStore, hex, hw, loadGraphEdges]
  · intro hsr hnt
    have hw : needsWipe env = true := by
      simp [needsWipe, hsr, hnt]
    simp [openStore, hex, hw, loadGraphEdges]
  · intro rev hsr hlt
    have hw : needsWipe env = false := by
      simp [needsWipe, hsr, hlt]
    simp [openStore, hex, hw]
  · intro hsr hnt
    have hw : needsWipe env = false := by
      simp [needsWipe, hsr, hnt]
    simp [openStore, hex, hw]

/-- A concrete stored node row used by witnesses. -/
def sampleStoredNode : StoredNode :=
  { id := 1, sha256 := 7, filename := none, title := "A", rom_type := "NES",
    prg_rom_size := none, chr_rom_size := none, has_trainer := none,
    mapper := none, mirroring := none, has_battery := none, is_nes2 := none,
    nes2_submapper := none, source_url := none, version := none,
    release_date := none, tags := none, description := none }

/-- Witness for C4: a store at revision `0` with data and one regular plus
one non-file entry in `diffs/` is wiped; the same store at the current
revision is preserved. -/
theorem C4_open_revision_gate_witness :
    (openStore
      { dbExists := true, storedRevision := some 0, hasNodesTable := true,
        dbNodes := [sampleStoredNode],
        dbEdges := [], diffEntries := [((7, 9), true), ((3, 4), false)] } =
      { dbNodes := [], dbEdges := [], graphNodes := [], graphEdges := [],
        diffEntries := [((3, 4), false)],
        recordedRevision := DATA_REVISION }) ∧
    (openStore
      { dbExists := true, storedRevision := some 1, hasNodesTable := true,
        dbNodes := [], dbEdges := [],
        diffEntries := [((7, 9), true)] } =
      { dbNodes := [], dbEdges := [], graphNodes := [], graphEdges := [],
        diffEntries := [((7, 9), true)],
        recordedRevision := DATA_REVISION }) := by
  constructor
  · have h := ((C4_open_revision_gate
      { dbExists := true, storedRevision := some 0, hasNodesTable := true,
        dbNodes := [sampleStoredNode], dbEdges := [],
        diffEntries := [((7, 9), true), ((3, 4), false)] } rfl).1).1
      0 rfl (by decide)
    rw [h]
    decide
  · have h := ((C4_open_revision_gate
      { dbExists := true, storedRevision := some 1, hasNodesTable := true,
        dbNodes := [], dbEdges := [],
        diffEntries := [((7, 9), true)] } rfl).2).1
      1 rfl (by decide)
    rw [h]
    decide

/-! ### Linking twice (C5) and the `expect` branches (C10) -/

theorem any_beq_of_mem_map_fst (files : DiffFiles) (name : DiffName)
    (h : name ∈ files.map Prod.fst) :
    files.any (fun f => f.1 == name) = true := by
  rw [List.any_eq_true]
  obtain ⟨f, hf, hfe⟩ := List.mem_map.mp h
  exact ⟨f, hf, by simp [hfe]⟩

/-- Writing a diff file whose name already exists (`File::create`
truncates) leaves the set of file names unchanged. -/
theorem writeDiffFile_map_fst_of_mem (files : DiffFiles) (name : DiffName)
    (patch : List BsdiffRecord) (h : name ∈ files.map Prod.fst) :
    (writeDiffFile files name patch).map Prod.fst = files.map Prod.fst := by
  unfold writeDiffFile
  rw [if_pos (any_beq_of_mem_map_fst files name h), List.map_map]
  apply List.map_congr_left
  intro f _
  simp only [Function.comp_apply]
  by_cases hf : (f.1 == name) = true
  · rw [if_pos hf]
    exact (eq_of_beq hf).symm
  · rw [if_neg hf]

/-- C5: calling `link_nodes` again on an already-linked pair returns
`DiffAlreadyExists` (from the first edge insert), and no new files appear
in `diffs/`: the name set is exactly what it was (the two patch files are
re-written in place before the insert fails), and the database and graph
are untouched. -/
theorem C5_link_twice_rejected
    (fs : FileSys) (st : EngineState) (path_a path_b : String)
    (bytes_a bytes_b : List Nat) (ma mb : RomMetadata) (ra rb : NodeRow)
    (hra : read_rom_bytes fs path_a = .ok bytes_a)
    (hrb : read_rom_bytes fs path_b = .ok bytes_b)
    (hha : hash_rom_file fs path_a = .ok ma)
    (hhb : hash_rom_file fs path_b = .ok mb)
    (hga : get_node_by_hash st.db ma.sha256 = some ra)
    (hgb : get_node_by_hash st.db mb.sha256 = some rb)
    (hedge : st.db.edges.any
      (fun e => e.source_id == ra.id && e.target_id == rb.id) = true)
    (hfab : (ma.sha256, mb.sha256) ∈ st.diffFiles.map Prod.fst)
    (hfba : (mb.sha256, ma.sha256) ∈ st.diffFiles.map Prod.fst) :
    (link_nodes fs st path_a path_b).2 =
      Outcome.error (.diffAlreadyExists ra.id rb.id) ∧
    (link_nodes fs st path_a path_b).1.diffFiles.map Prod.fst =
      st.diffFiles.map Prod.fst ∧
    (link_nodes fs st path_a path_b).1.db = st.db ∧
    (link_nodes fs st path_a path_b).1.graph = st.graph := by
  have hlink : link_nodes fs st path_a path_b =
      (EngineState.mk st.db st.graph
        (writeDiffFile
          (writeDiffFile st.diffFiles (ma.sha256, mb.sha256)
            (create_diff bytes_a bytes_b))
          (mb.sha256, ma.sha256) (create_diff bytes_b bytes_a)),
        Outcome.error (.diffAlreadyExists ra.id rb.id)) := by
    simp only [link_nodes, hra, hrb, hha, hhb, hga, hgb, create_diff_file,
      insert_edge, hedge]
    rfl
  rw [hlink]
  refine ⟨rfl, ?_, rfl, rfl⟩
  rw [writeDiffFile_map_fst_of_mem _ _ _
    (by rw [writeDiffFile_map_fst_of_mem _ _ _ hfab]; exact hfba)]
  exact writeDiffFile_map_fst_of_mem _ _ _ hfab

/-- C10: under the precondition that the looked-up hashes are present as
nodes, the `expect` branches of `link_nodes` and `remove_node` are
unreachable and the operations do not panic; when the precondition is
violated they panic with the `expect` message rather than returning a
typed error such as `RomNotFound`. -/
theorem C10_expect_branches (fs : FileSys) (st : EngineState)
    (path_a path_b : String) (sha256 : Sha256) :
    ((get_node_by_hash st.db sha256).isSome = true →
      ∀ msg, (remove_node st sha256).2 ≠ Outcome.panicked msg) ∧
    (get_node_by_hash st.db sha256 = none →
      remove_node st sha256 =
        (st, Outcome.panicked "Node must exist in database")) ∧
    (∀ bytes_a bytes_b ma mb,
      read_rom_bytes fs path_a = .ok bytes_a →
      read_rom_bytes fs path_b = .ok bytes_b →
      hash_rom_file fs path_a = .ok ma →
      hash_rom_file fs path_b = .ok mb →
      (get_node_by_hash st.db ma.sha256).isSome = true →
      (get_node_by_hash st.db mb.sha256).isSome = true →
      ∀ msg, (link_nodes fs st path_a path_b).2 ≠ Outcome.panicked msg) ∧
    (∀ bytes_a bytes_b ma mb,
      read_rom_bytes fs path_a = .ok bytes_a →
      read_rom_bytes fs path_b = .ok bytes_b →
      hash_rom_file fs path_a = .ok ma →
      hash_rom_file fs path_b = .ok mb →
      get_node_by_hash st.db ma.sha256 = none →
      (link_nodes fs st path_a path_b).2 =
        Outcome.panicked "Node A must exist in database") ∧
    (∀ bytes_a bytes_b ma mb,
      read_rom_bytes fs path_a = .ok bytes_a →
      read_rom_bytes fs path_b = .ok bytes_b →
      hash_rom_file fs path_a = .ok ma →
      hash_rom_file fs path_b = .ok mb →
      (get_node_by_hash st.db ma.sha256).isSome = true →
      get_node_by_hash st.db mb.sha256 = none →
      (link_nodes fs st path_a path_b).2 =
        Outcome.panicked "Node B must exist in database") := by
  refine ⟨?_, ?_, ?_, ?_, ?_⟩
  · intro h msg
    obtain ⟨row, hrow⟩ := Option.isSome_iff_exists.mp h
    simp only [remove_node, hrow]
    intro hc
    exact Outcome.noConfusion hc
  · intro h
    simp only [remove_node, h]
  · intro bytes_a bytes_b ma mb hra hrb hha hhb ha hb msg
    obtain ⟨rowa, hrowa⟩ := Option.isSome_iff_exists.mp ha
    obtain ⟨rowb, hrowb⟩ := Option.isSome_iff_exists.mp hb
    simp only [link_nodes, hra, hrb, hha, hhb, hrowa, hrowb,
      create_diff_file]
    split <;> (try split) <;> simp
  · intro bytes_a bytes_b ma mb hra hrb hha hhb ha
    simp only [link_nodes, hra, hrb, hha, hhb, ha]
  · intro bytes_a bytes_b ma mb hra hrb hha hhb ha hb
    obtain ⟨rowa, hrowa⟩ := Option.isSome_iff_exists.mp ha
    simp only [link_nodes, hra, hrb, hha, hhb, hrowa, hb]

/-! ### Concrete sample store used by the manager witnesses -/

/-- Second concrete stored node row. -/
def sampleStoredNodeB : StoredNode :=
  { sampleStoredNode with id := 2, sha256 := 9, title := "B" }

/-- A database in which nodes `A` (hash `7`) and `B` (hash `9`) are linked
in both directions. -/
def linkedDb : Db :=
  { nodes := [sampleStoredNode, sampleStoredNodeB]
    edges := [
      { id := 1, source_id := 1, target_id := 2, diff_path := (7, 9),
        diff_size := 3 },
      { id := 2, source_id := 2, target_id := 1, diff_path := (9, 7),
        diff_size := 3 }]
    nextNodeId := 3
    nextEdgeId := 3 }

/-- ROM file `a.nes` with body `[1, 2, 3]`, hash `7`. -/
def rfA : RomFile :=
  { bytes := [1, 2, 3]
    metadata := { rom_type := .nes, sha256 := 7, filename := some "a.nes",
                  nes_header := none, source_file_header := none } }

/-- ROM file `b.nes` with body `[1, 2, 4]`, hash `9`. -/
def rfB : RomFile :=
  { bytes := [1, 2, 4]
    metadata := { rom_type := .nes, sha256 := 9, filename := some "b.nes",
                  nes_header := none, source_file_header := none } }

def sampleFs : FileSys := [("a.nes", rfA), ("b.nes", rfB)]

/-- The graph node mirroring `sampleStoredNode`. -/
def gnA : RomNode :=
  { db_id := 1, sha256 := 7, filename := none, title := "A",
    version := none, rom_type := .nes }

/-- The graph node mirroring `sampleStoredNodeB`. -/
def gnB : RomNode :=
  { db_id := 2, sha256 := 9, filename := none, title := "B",
    version := none, rom_type := .nes }

/-- An engine in which `A` and `B` are already linked (database, graph and
`diffs/` all agree). -/
def linkedEngine : EngineState :=
  { db := linkedDb
    graph := { nodes := [gnA, gnB]
               edges := [
                 { src := 7, tgt := 9,
                   data := { db_id := 1, diff_path := (7, 9),
                             diff_size := 3 } },
                 { src := 9, tgt := 7,
                   data := { db_id := 2, diff_path := (9, 7),
                             diff_size := 3 } }] }
    diffFiles := [((7, 9), []), ((9, 7), [])] }

/-- An engine with no nodes at all. -/
def emptyEngine : EngineState :=
  { db := emptyDb, graph := { nodes := [], edges := [] }, diffFiles := [] }

/-- An engine containing only node `A`. -/
def engineOnlyA : EngineState :=
  { db := { nodes := [sampleStoredNode], edges := [], nextNodeId := 2,
            nextEdgeId := 1 }
    graph := { nodes := [gnA], edges := [] }
    diffFiles := [] }

/-- Witness for C5: relinking the already-linked pair `A`/`B` of
`linkedEngine`. -/
theorem C5_link_twice_rejected_witness :
    (get_node_by_hash linkedDb 7 =
        some (map_row_to_node_row sampleStoredNode) ∧
      get_node_by_hash linkedDb 9 =
        some (map_row_to_node_row sampleStoredNodeB) ∧
      linkedDb.edges.any (fun e =>
        e.source_id == (map_row_to_node_row sampleStoredNode).id &&
        e.target_id == (map_row_to_node_row sampleStoredNodeB).id) = true ∧
      ((7 : Sha256), (9 : Sha256)) ∈ linkedEngine.diffFiles.map Prod.fst ∧
      ((9 : Sha256), (7 : Sha256)) ∈ linkedEngine.diffFiles.map Prod.fst) ∧
    (link_nodes sampleFs linkedEngine "a.nes" "b.nes").2 =
      Outcome.error (.diffAlreadyExists 1 2) ∧
    (link_nodes sampleFs linkedEngine "a.nes" "b.nes").1.diffFiles.map
        Prod.fst =
      linkedEngine.diffFiles.map Prod.fst := by
  have h := C5_link_twice_rejected sampleFs linkedEngine "a.nes" "b.nes"
    [1, 2, 3] [1, 2, 4] rfA.metadata rfB.metadata
    (map_row_to_node_row sampleStoredNode)
    (map_row_to_node_row sampleStoredNodeB)
    rfl rfl rfl rfl (by decide) (by decide)
    (by decide) (by decide) (by decide)
  exact ⟨⟨by decide, by decide, by decide, by decide, by decide⟩,
    h.1.trans (by decide), h.2.1⟩

/-- Witness for C10: `remove_node`/`link_nodes` on present hashes do not
panic; on absent hashes they panic with the `expect` messages. -/
theorem C10_expect_branches_witness :
    ((get_node_by_hash linkedDb 7).isSome = true ∧
      (remove_node linkedEngine 7).2 ≠
        Outcome.panicked "Node must exist in database") ∧
    (get_node_by_hash linkedDb 555 = none ∧
      remove_node linkedEngine 555 =
        (linkedEngine, Outcome.panicked "Node must exist in database")) ∧
    ((link_nodes sampleFs linkedEngine "a.nes" "b.nes").2 ≠
      Outcome.panicked "Node A must exist in database") ∧
    ((link_nodes sampleFs emptyEngine "a.nes" "b.nes").2 =
      Outcome.panicked "Node A must exist in database") ∧
    ((link_nodes sampleFs engineOnlyA "a.nes" "b.nes").2 =
      Outcome.panicked "Node B must exist in database") := by
  refine ⟨⟨by decide, ?_⟩, ⟨by decide, ?_⟩, ?_, ?_, ?_⟩
  · exact (C10_expect_branches sampleFs linkedEngine "a.nes" "b.nes" 7).1
      (by decide) _
  · exact (C10_expect_branches sampleFs linkedEngine "a.nes" "b.nes"
      555).2.1 (by decide)
  · exact (C10_expect_branches sampleFs linkedEngine "a.nes" "b.nes"
      7).2.2.1 [1, 2, 3] [1, 2, 4] rfA.metadata rfB.metadata rfl
      rfl rfl rfl (by decide) (by decide) _
  · exact (C10_expect_branches sampleFs emptyEngine "a.nes" "b.nes"
      7).2.2.2.1 [1, 2, 3] [1, 2, 4] rfA.metadata rfB.metadata rfl
      rfl rfl rfl (by decide)
  · exact (C10_expect_branches sampleFs engineOnlyA "a.nes" "b.nes"
      7).2.2.2.2 [1, 2, 3] [1, 2, 4] rfA.metadata rfB.metadata rfl
      rfl rfl rfl (by decide) (by decide)

/-! ## Build pipeline (`StorageManager::build_rom` + `cmd_build` in
`src/cli/repl.rs`)

`cmd_build` reads `result.target_row.source_file_header`, but the `NodeRow`
of `src/db/repository.rs` has no such field (claim C2).  The spec schema
(§4.3) and every other consumer carry the raw-header column, so the build
path's target row is modelled as the repository `NodeRow` plus that
column. -/

/-- Modelled from the spec: the target row as the build pipeline expects
it — the `nodes` row including the `source_file_header blob?` column of the
spec schema (§4.3), which `src/db/repository.rs` fails to carry (C2). -/
structure BuildNodeRow where
  row : NodeRow
  source_file_header : Option (List Nat)
deriving DecidableEq, Repr

/-- `NodeRow::to_nes_header` from `src/db/repository.rs`: `None` when
`prg_rom_size` or `chr_rom_size` is missing; the remaining fields default
(`unwrap_or`) to `false` / `0` / `Horizontal`. -/
def NodeRow.to_nes_header (r : NodeRow) : Option NesHeader :=
  match r.prg_rom_size, r.chr_rom_size with
  | some prg, some chr =>
    some { prg_rom_size := prg
           chr_rom_size := chr
           has_trainer := r.has_trainer.getD false
           mapper := r.mapper.getD 0
           mirroring := r.mirroring.getD .horizontal
           has_battery := r.has_battery.getD false
           is_nes2 := r.is_nes2.getD false
           submapper := r.submapper }
  | _, _ => none

/-- `reconstruct_nes_file` from `src/rom/nes.rs`: rebuilt header followed
by the body. -/
def reconstruct_nes_file (header : NesHeader) (rom_bytes : List Nat) :
    List Nat :=
  build_nes_header header ++ rom_bytes

/-- Modelled from the spec: `reconstruct_nes_file_raw` is re-exported by
`src/rom/mod.rs` but its definition is not under src/.  Per §4.1 and
invariant 6 of §3, emitting the stored raw header bytes followed by the
body yields the original file byte-exactly. -/
def reconstruct_nes_file_raw (raw_header rom_bytes : List Nat) : List Nat :=
  raw_header ++ rom_bytes

/-- `StorageManager::find_path`: resolve both hashes through the hash
index, then run the graph BFS. -/
def manager_find_path (g : RomGraph) (source_hash target_hash : Sha256) :
    Option (List PathStep) :=
  match graphNodeByHash g source_hash, graphNodeByHash g target_hash with
  | some _, some _ => find_path g.edges source_hash target_hash
  | _, _ => none

/-- The `for step in path.iter().skip(1)` loop of
`StorageManager::build_rom`: apply each step's diff file, rebinding the
current bytes (steps without an edge are skipped). -/
def applySteps (files : DiffFiles) :
    List Nat → List PathStep → Except DromosError (List Nat)
  | cur, [] => .ok cur
  | cur, step :: rest =>
    match step.edge with
    | none => applySteps files cur rest
    | some edge =>
      match apply_diff_file files cur edge.diff_path with
      | .error e => .error e
      | .ok next => applySteps files next rest

/-- `BuildResult` from `src/storage/manager.rs` (with the spec-modelled
row type, see `BuildNodeRow`). -/
structure BuildResult where
  bytes : List Nat
  target_row : BuildNodeRow
  steps : Nat
deriving DecidableEq, Repr

/-- `StorageManager::build_rom`: hash the source file and require it known;
find the shortest path (else `NoPath`); read the source body; apply each
diff along the path; fetch the target's full row. -/
def build_rom (fs : FileSys) (g : RomGraph)
    (rows : List (Sha256 × BuildNodeRow)) (diffFiles : DiffFiles)
    (source_path : String) (target_hash : Sha256) :
    Except DromosError BuildResult :=
  match hash_rom_file fs source_path with
  | .error e => .error e
  | .ok source_meta =>
    if (graphNodeByHash g source_meta.sha256).isNone then
      .error (.romNotFound source_meta.sha256)
    else
      match manager_find_path g source_meta.sha256 target_hash with
      | none => .error (.noPath source_meta.sha256 target_hash)
      | some path =>
        match read_rom_bytes fs source_path with
        | .error e => .error e
        | .ok start_bytes =>
          match applySteps diffFiles start_bytes (path.drop 1) with
          | .error e => .error e
          | .ok current_bytes =>
            match rows.find? (fun r => r.1 == target_hash) with
            | none => .error (.romNotFound target_hash)
            | some r =>
              .ok { bytes := current_bytes, target_row := r.2,
                    steps := path.length - 1 }

/-- The reconstruction decision of `cmd_build` (`src/cli/repl.rs`): for a
NES target, prepend the stored raw header when present, otherwise warn and
write the raw body. -/
def cmd_build_final_bytes (target_type : RomType)
    (target_row : BuildNodeRow) (bytes : List Nat) : List Nat :=
  match target_type with
  | .nes =>
    match target_row.source_file_header with
    | some raw => reconstruct_nes_file_raw raw bytes
    | none => bytes

/-- The full `cmd_build` output path: resolve the target node (for its
`rom_type`), run `build_rom`, then reconstruct. -/
def cmd_build_output (fs : FileSys) (g : RomGraph)
    (rows : List (Sha256 × BuildNodeRow)) (diffFiles : DiffFiles)
    (source_path : String) (target_hash : Sha256) :
    Except DromosError (List Nat) :=
  match graphNodeByHash g target_hash with
  | none => .error (.romNotFound target_hash)
  | some target_node =>
    match build_rom fs g rows diffFiles source_path target_hash with
    | .error e => .error e
    | .ok res =>
      .ok (cmd_build_final_bytes target_node.rom_type res.target_row
        res.bytes)

/-- The reconstruction rule exactly as claim C1 states it: raw header
bytes when present; else a header rebuilt from the descriptor when the
descriptor is complete; else the body alone. -/
def claimC1_final_bytes (target_row : BuildNodeRow) (bytes : List Nat) :
    List Nat :=
  match target_row.source_file_header with
  | some raw => raw ++ bytes
  | none =>
    match target_row.row.to_nes_header with
    | some hdr => build_nes_header hdr ++ bytes
    | none => bytes

/-- A target row with a complete header descriptor but no stored raw
header bytes. -/
def descRow : NodeRow :=
  { id := 1, sha256 := 7, filename := none, title := "A", rom_type := .nes,
    prg_rom_size := some 16384, chr_rom_size := some 8192,
    has_trainer := some false, mapper := some 0,
    mirroring := some .horizontal, has_battery := some false,
    is_nes2 := some false, submapper := none, source_url := none,
    version := none, release_date := none, tags := [], description := none }

def bRowNoRaw : BuildNodeRow := { row := descRow, source_file_header := none }

def bRowRaw : BuildNodeRow :=
  { row := descRow
    source_file_header :=
      some [78, 69, 83, 26, 2, 1, 67, 0, 0, 0, 0, 0, 0, 0, 0, 0] }

/-- The single-node graph holding only node `A` (hash `7`). -/
def buildGraph : RomGraph := { nodes := [gnA], edges := [] }

/-- C1 counterexample: a successful build (source = target, zero steps) on
a NES target whose row has a complete header descriptor but no raw header
bytes.  The code emits the bare body; the claim predicts a rebuilt 16-byte
header prepended to it. -/
theorem C1_claim_counterexample :
    cmd_build_output sampleFs buildGraph [(7, bRowNoRaw)] [] "a.nes" 7 =
      .ok [1, 2, 3] ∧
    bRowNoRaw.source_file_header = none ∧
    bRowNoRaw.row.to_nes_header ≠ none ∧
    claimC1_final_bytes bRowNoRaw [1, 2, 3] =
      [78, 69, 83, 26, 1, 1, 0, 0, 0, 0, 0, 0, 0, 0, 0, 0] ++ [1, 2, 3] ∧
    ([1, 2, 3] : List Nat) ≠
      [78, 69, 83, 26, 1, 1, 0, 0, 0, 0, 0, 0, 0, 0, 0, 0] ++ [1, 2, 3] :=
  ⟨rfl, rfl, by decide, by decide, by decide⟩

/-- C1 (amended): for every `build` call on a NES target that succeeds,
the reconstructed bytes are the target's raw header bytes prepended to the
patched body when `raw_header_bytes` is present, and the patched body alone
otherwise (with a warning); the header descriptor is never consulted. -/
theorem C1_build_reconstruction (fs : FileSys) (g : RomGraph)
    (rows : List (Sha256 × BuildNodeRow)) (diffFiles : DiffFiles)
    (source_path : String) (target_hash : Sha256) (tn : RomNode)
    (res : BuildResult)
    (hg : graphNodeByHash g target_hash = some tn)
    (hb : build_rom fs g rows diffFiles source_path target_hash = .ok res) :
    cmd_build_output fs g rows diffFiles source_path target_hash =
      .ok (match res.target_row.source_file_header with
           | some raw => raw ++ res.bytes
           | none => res.bytes) := by
  unfold cmd_build_output
  rw [hg, hb]
  cases htt : tn.rom_type
  cases hsh : res.target_row.source_file_header <;>
    simp [cmd_build_final_bytes, reconstruct_nes_file_raw, hsh]

/-- Witness for C1 (amended): the same single-node build with the raw
header stored returns header-plus-body; with it absent, body alone. -/
theorem C1_build_reconstruction_witness :
    (graphNodeByHash buildGraph 7 = some gnA ∧
      build_rom sampleFs buildGraph [(7, bRowRaw)] [] "a.nes" 7 =
        .ok { bytes := [1, 2, 3], target_row := bRowRaw, steps := 0 } ∧
      cmd_build_output sampleFs buildGraph [(7, bRowRaw)] [] "a.nes" 7 =
        .ok ([78, 69, 83, 26, 2, 1, 67, 0, 0, 0, 0, 0, 0, 0, 0, 0] ++
          [1, 2, 3])) ∧
    cmd_build_output sampleFs buildGraph [(7, bRowNoRaw)] [] "a.nes" 7 =
      .ok [1, 2, 3] := by
  refine ⟨⟨rfl, rfl, ?_⟩, ?_⟩
  · exact (C1_build_reconstruction sampleFs buildGraph [(7, bRowRaw)] []
      "a.nes" 7 gnA
      { bytes := [1, 2, 3], target_row := bRowRaw, steps := 0 }
      rfl rfl).trans rfl
  · exact (C1_build_reconstruction sampleFs buildGraph [(7, bRowNoRaw)] []
      "a.nes" 7 gnA
      { bytes := [1, 2, 3], target_row := bRowNoRaw, steps := 0 }
      rfl rfl).trans rfl

/-! ## Exchange import (`src/exchange/import.rs`, `src/exchange/format.rs`)

Manifest hashes are 64-hex strings parsed by `parse_hash`; they are
modelled already parsed (hex encoding is a bijection; invalid-hash manifest
errors are outside the modelled claims).  The per-patch checksum `sha256`
is an empty string or a digest; it is modelled as `Option Sha256` with the
digest function abstract. -/

/-- `ExportNode` from `src/exchange/format.rs` (hash parsed, raw header
base64-decoded). -/
structure ExportNode where
  sha256 : Sha256
  filename : Option String
  title : String
  rom_type : String
  version : Option String
  source_url : Option String
  release_date : Option String
  tags : List String
  description : Option String
  source_file_header : Option (List Nat)
deriving DecidableEq, Repr

/-- `ExportEdge` from `src/exchange/format.rs` (`sha256` is the optional
patch checksum; `none` models the empty string). -/
structure ExportEdge where
  source_sha256 : Sha256
  target_sha256 : Sha256
  diff_path : DiffName
  diff_size : Int
  sha256 : Option Sha256
deriving DecidableEq, Repr

/-- The parts of `ExportManifest` consumed by `execute_import` (the
`dromos_export` header is validated in the analyze phase). -/
structure ExportManifest where
  files : List ExportNode
  diffs : List ExportEdge
deriving DecidableEq, Repr

/-- `ImportResult` from `src/exchange/import.rs`. -/
structure ImportResult where
  nodes_added : Nat
  nodes_skipped : Nat
  nodes_overwritten : Nat
  edges_added : Nat
  edges_skipped : Nat
  diffs_copied : Nat
deriving DecidableEq, Repr

def emptyImportResult : ImportResult :=
  { nodes_added := 0, nodes_skipped := 0, nodes_overwritten := 0,
    edges_added := 0, edges_skipped := 0, diffs_copied := 0 }

/-- `node_metadata_from_export`. -/
def node_metadata_from_export (n : ExportNode) : NodeMetadata :=
  { title := n.title, source_url := n.source_url, version := n.version,
    release_date := n.release_date, tags := n.tags,
    description := n.description }

/-- `rom_metadata_from_export` (hash already parsed; the ROM type string
must parse). -/
def rom_metadata_from_export (n : ExportNode) :
    Except DromosError RomMetadata :=
  match RomType.fromStr n.rom_type with
  | none => .error (.importError ("Unknown ROM type: " ++ n.rom_type))
  | some rt =>
    .ok { rom_type := rt, sha256 := n.sha256, filename := n.filename,
          nes_header := none, source_file_header := n.source_file_header }

/-- The node loop of `execute_import`.  `m` is `hash_to_db_id`; the code
uses a `HashMap` whose `insert` overwrites, while the model appends and
`lookup` takes the first entry — for a duplicated manifest hash both map it
to the same database id, so the two agree. -/
def importNodesPhase (overwrite : Bool) :
    List ExportNode → Db → RomGraph → List (Sha256 × Nat) → ImportResult →
    Except DromosError (Db × RomGraph × List (Sha256 × Nat) × ImportResult)
  | [], db, g, m, r => .ok (db, g, m, r)
  | n :: rest, db, g, m, r =>
    match get_node_by_hash db n.sha256 with
    | some existing =>
      match overwrite with
      | true =>
        let nm := node_metadata_from_export n
        let db1 := update_node_metadata db existing.id nm
        let g1 := { g with nodes := g.nodes.map (fun gn =>
            if gn.sha256 == n.sha256 then
              { gn with title := nm.title, version := nm.version }
            else gn) }
        importNodesPhase overwrite rest db1 g1 (m ++ [(n.sha256, existing.id)])
          { r with nodes_overwritten := r.nodes_overwritten + 1 }
      | false =>
        importNodesPhase overwrite rest db g (m ++ [(n.sha256, existing.id)])
          { r with nodes_skipped := r.nodes_skipped + 1 }
    | none =>
      match rom_metadata_from_export n with
      | .error e => .error e
      | .ok rom_meta =>
        let nm := node_metadata_from_export n
        match insert_node db rom_meta nm with
        | .error e => .error e
        | .ok (db_id, db1) =>
          let g1 := { g with nodes := g.nodes ++
            [{ db_id := db_id, sha256 := n.sha256, filename := n.filename,
               title := nm.title, version := nm.version,
               rom_type := rom_meta.rom_type }] }
          importNodesPhase overwrite rest db1 g1 (m ++ [(n.sha256, db_id)])
            { r with nodes_added := r.nodes_added + 1 }

/-- Endpoint resolution of the edge loop: `hash_to_db_id` first, then a
local lookup; `none` means the edge is silently skipped. -/
def resolveEndpoint (m : List (Sha256 × Nat)) (db : Db) (h : Sha256) :
    Option Nat :=
  match m.lookup h with
  | some id => some id
  | none => (get_node_by_hash db h).map (fun row => row.id)

/-- The edge loop of `execute_import`: `DiffAlreadyExists` counts as
skipped, success adds the edge to the repository and (when both hashes
resolve in the graph) the graph; other errors propagate (none exist in the
model). -/
def importEdgesPhase :
    List ExportEdge → Db → RomGraph → List (Sha256 × Nat) → ImportResult →
    Except DromosError (Db × RomGraph × ImportResult)
  | [], db, g, _, r => .ok (db, g, r)
  | e :: rest, db, g, m, r =>
    match resolveEndpoint m db e.source_sha256 with
    | none => importEdgesPhase rest db g m r
    | some source_id =>
    match resolveEndpoint m db e.target_sha256 with
    | none => importEdgesPhase rest db g m r
    | some target_id =>
      match insert_edge db source_id target_id e.diff_path e.diff_size with
      | .ok (edge_db_id, db1) =>
        let g1 :=
          if (graphNodeByHash g e.source_sha256).isSome &&
              (graphNodeByHash g e.target_sha256).isSome then
            { g with edges := g.edges ++
              [{ src := e.source_sha256, tgt := e.target_sha256,
                 data := { db_id := edge_db_id, diff_path := e.diff_path,
                           diff_size := e.diff_size } }] }
          else g
        importEdgesPhase rest db1 g1 m
          { r with edges_added := r.edges_added + 1 }
      | .error (.diffAlreadyExists _ _) =>
        importEdgesPhase rest db g m
          { r with edges_skipped := r.edges_skipped + 1 }
      | .error err => .error err

/-- The diff-copy loop of `execute_import`: skip files already present
locally, copy from the exchange folder after verifying the checksum when
the manifest carries one (`hashFn` abstracts SHA-256 over patch bytes). -/
def importDiffsPhase (hashFn : List BsdiffRecord → Sha256) :
    List ExportEdge → DiffFiles → DiffFiles → ImportResult →
    Except DromosError (DiffFiles × ImportResult)
  | [], locFiles, _, r => .ok (locFiles, r)
  | e :: rest, locFiles, folder, r =>
    if locFiles.any (fun f => f.1 == e.diff_path) then
      importDiffsPhase hashFn rest locFiles folder r
    else
      match folder.find? (fun f => f.1 == e.diff_path) with
      | none => importDiffsPhase hashFn rest locFiles folder r
      | some f =>
        match e.sha256 with
        | some expected =>
          if hashFn f.2 ≠ expected then
            .error (.importError "SHA-256 mismatch")
          else
            importDiffsPhase hashFn rest (locFiles ++ [(e.diff_path, f.2)])
              folder { r with diffs_copied := r.diffs_copied + 1 }
        | none =>
          importDiffsPhase hashFn rest (locFiles ++ [(e.diff_path, f.2)])
            folder { r with diffs_copied := r.diffs_copied + 1 }

/-- `execute_import` (`src/exchange/import.rs`): nodes, then edges, then
patch files. -/
def execute_import (hashFn : List BsdiffRecord → Sha256)
    (manifest : ExportManifest) (overwrite : Bool) (db : Db) (g : RomGraph)
    (locFiles folderFiles : DiffFiles) :
    Except DromosError (Db × RomGraph × DiffFiles × ImportResult) :=
  match importNodesPhase overwrite manifest.files db g [] emptyImportResult
      with
  | .error e => .error e
  | .ok (db1, g1, m, r1) =>
    match importEdgesPhase manifest.diffs db1 g1 m r1 with
    | .error e => .error e
    | .ok (db2, g2, r2) =>
      match importDiffsPhase hashFn manifest.diffs locFiles folderFiles r2
          with
      | .error e => .error e
      | .ok (loc2, r3) => .ok (db2, g2, loc2, r3)

/-! ### Helper lemmas for the import proofs -/

theorem lookup_mem {α β : Type} [BEq α] [LawfulBEq α]
    (l : List (α × β)) (a : α) (b : β) (h : l.lookup a = some b) :
    (a, b) ∈ l := by
  induction l with
  | nil => simp [List.lookup] at h
  | cons x xs ih =>
    cases x with
    | mk k v =>
      by_cases hk : (a == k) = true
      · simp only [List.lookup, hk] at h
        cases h
        rw [eq_of_beq hk]
        exact List.mem_cons_self _ _
      · simp only [List.lookup, hk] at h
        exact List.mem_cons_of_mem _ (ih h)

/-- `get_node_by_hash` only reads the nodes table. -/
theorem get_node_by_hash_nodes_eq (db db' : Db) (h : Sha256)
    (heq : db'.nodes = db.nodes) :
    get_node_by_hash db' h = get_node_by_hash db h := by
  unfold get_node_by_hash
  rw [heq]

/-- A successful lookup is stable when rows are appended. -/
theorem get_node_by_hash_append_some (db db' : Db) (extra : List StoredNode)
    (h : Sha256) (row : NodeRow)
    (heq : db'.nodes = db.nodes ++ extra)
    (hg : get_node_by_hash db h = some row) :
    get_node_by_hash db' h = some row := by
  unfold get_node_by_hash at hg ⊢
  rw [heq, List.find?_append]
  obtain ⟨sn, hsn, hmap⟩ := Option.map_eq_some'.mp hg
  rw [hsn]
  simpa using hmap

/-- A failed lookup stays failed when the appended rows have other
hashes. -/
theorem get_node_by_hash_append_none (db db' : Db) (extra : List StoredNode)
    (h : Sha256)
    (heq : db'.nodes = db.nodes ++ extra)
    (hg : get_node_by_hash db h = none)
    (hextra : ∀ row ∈ extra, row.sha256 ≠ h) :
    get_node_by_hash db' h = none := by
  unfold get_node_by_hash at hg ⊢
  rw [heq, List.find?_append]
  rw [Option.map_eq_none'] at hg
  rw [hg, Option.none_or, Option.map_eq_none', List.find?_eq_none]
  intro row hr
  simp only [beq_iff_eq]
  exact hextra row hr

/-- What a successful `insert_edge` does to the store. -/
theorem insert_edge_ok_spec (db : Db) (sid tid : Nat) (dp : DiffName)
    (ds : Int) (eid : Nat) (db1 : Db)
    (h : insert_edge db sid tid dp ds = .ok (eid, db1)) :
    db1.nodes = db.nodes ∧ db1.nextNodeId = db.nextNodeId ∧
    db1.edges = db.edges ++
      [{ id := db.nextEdgeId, source_id := sid, target_id := tid,
         diff_path := dp, diff_size := ds }] := by
  unfold insert_edge at h
  by_cases hc : db.edges.any
      (fun e => e.source_id == sid && e.target_id == tid) = true
  · rw [if_pos hc] at h
    exact Except.noConfusion h
  · rw [if_neg hc] at h
    cases h
    exact ⟨rfl, rfl, rfl⟩

/-- What a failed `insert_edge` means. -/
theorem insert_edge_error_spec (db : Db) (sid tid : Nat) (dp : DiffName)
    (ds : Int) (e : DromosError)
    (h : insert_edge db sid tid dp ds = .error e) :
    e = .diffAlreadyExists sid tid ∧
    db.edges.any (fun er => er.source_id == sid && er.target_id == tid) =
      true := by
  unfold insert_edge at h
  by_cases hc : db.edges.any
      (fun er => er.source_id == sid && er.target_id == tid) = true
  · rw [if_pos hc] at h
    cases h
    exact ⟨rfl, hc⟩
  · rw [if_neg hc] at h
    exact Except.noConfusion h

/-- What a successful `insert_node` does to the store. -/
theorem insert_node_ok_spec (db : Db) (rm : RomMetadata) (nm : NodeMetadata)
    (nid : Nat) (db1 : Db)
    (h : insert_node db rm nm = .ok (nid, db1)) :
    nid = db.nextNodeId ∧
    db1.edges = db.edges ∧ db1.nextEdgeId = db.nextEdgeId ∧
    db1.nextNodeId = db.nextNodeId + 1 ∧
    get_node_by_hash db rm.sha256 = none ∧
    ∃ row : StoredNode, db1.nodes = db.nodes ++ [row] ∧
      row.id = db.nextNodeId ∧ row.sha256 = rm.sha256 := by
  unfold insert_node at h
  by_cases hc : (get_node_by_hash db rm.sha256).isSome = true
  · rw [if_pos hc] at h
    exact Except.noConfusion h
  · rw [if_neg hc] at h
    cases h
    refine ⟨rfl, rfl, rfl, rfl, ?_, ⟨_, rfl, rfl, rfl⟩⟩
    rw [Bool.not_eq_true] at hc
    cases hg : get_node_by_hash db rm.sha256 with
    | none => rfl
    | some row => rw [hg] at hc; simp at hc

/-- If the map invariant holds and the local lookup succeeds, endpoint
resolution returns exactly the row's id. -/
theorem resolveEndpoint_of_get (m : List (Sha256 × Nat)) (db : Db)
    (h : Sha256) (row : NodeRow)
    (hminv : ∀ p ∈ m, ∃ row', get_node_by_hash db p.1 = some row' ∧
      row'.id = p.2)
    (hget : get_node_by_hash db h = some row) :
    resolveEndpoint m db h = some row.id := by
  unfold resolveEndpoint
  cases hm : m.lookup h with
  | none => rw [hget]; rfl
  | some id =>
    obtain ⟨row', hrow', hid⟩ := hminv (h, id) (lookup_mem m h id hm)
    rw [hget] at hrow'
    cases hrow'
    rw [hid]

/-- A successful node lookup names a stored row with that hash. -/
theorem get_node_by_hash_some_mem (db : Db) (h : Sha256) (row : NodeRow)
    (hget : get_node_by_hash db h = some row) :
    ∃ sn ∈ db.nodes, sn.sha256 = h ∧ sn.id = row.id ∧
      map_row_to_node_row sn = row := by
  unfold get_node_by_hash at hget
  obtain ⟨sn, hsn, hmap⟩ := Option.map_eq_some'.mp hget
  refine ⟨sn, List.mem_of_find?_eq_some hsn, ?_, ?_, hmap⟩
  · have := List.find?_some hsn
    simpa using this
  · rw [← hmap]
    rfl

/-- Looking up the hash of a freshly appended row. -/
theorem get_node_by_hash_append_new (db db' : Db) (row : StoredNode)
    (h : Sha256) (heq : db'.nodes = db.nodes ++ [row])
    (hnone : get_node_by_hash db h = none) (hsha : row.sha256 = h) :
    get_node_by_hash db' h = some (map_row_to_node_row row) := by
  unfold get_node_by_hash at hnone ⊢
  rw [heq, List.find?_append]
  rw [Option.map_eq_none'] at hnone
  rw [hnone, Option.none_or]
  have : List.find? (fun n => n.sha256 == h) [row] = some row := by
    simp [List.find?, hsha]
  rw [this, Option.map_some']

/-- The node loop of `execute_import` with `overwrite = false`: existing
rows are not touched (the store grows by appended rows only, mirrored into
the graph with matching hashes and fresh ids), edges are untouched,
`nodes_skipped` counts exactly the manifest nodes already present, and the
resulting `hash_to_db_id` entries name rows of the resulting store. -/
theorem importNodesPhase_false_spec
    (files : List ExportNode) (db : Db) (g : RomGraph)
    (m : List (Sha256 × Nat)) (r : ImportResult)
    (db1 : Db) (g1 : RomGraph) (m1 : List (Sha256 × Nat)) (r1 : ImportResult)
    (hrun : importNodesPhase false files db g m r = .ok (db1, g1, m1, r1))
    (hnodup : (files.map (fun n => n.sha256)).Nodup)
    (hids : ∀ row ∈ db.nodes, row.id < db.nextNodeId)
    (hminv : ∀ p ∈ m, ∃ row, get_node_by_hash db p.1 = some row ∧
      row.id = p.2) :
    (∃ extra gextra,
      db1.nodes = db.nodes ++ extra ∧
      g1.nodes = g.nodes ++ gextra ∧
      (∀ row ∈ extra, ∃ gn ∈ gextra, gn.sha256 = row.sha256) ∧
      (∀ row ∈ extra, db.nextNodeId ≤ row.id)) ∧
    db1.edges = db.edges ∧ g1.edges = g.edges ∧
    (∀ row ∈ db1.nodes, row.id < db1.nextNodeId) ∧
    db.nextNodeId ≤ db1.nextNodeId ∧
    r1.nodes_skipped = r.nodes_skipped +
      (files.filter
        (fun n => (get_node_by_hash db n.sha256).isSome)).length ∧
    (∀ p ∈ m1, ∃ row, get_node_by_hash db1 p.1 = some row ∧
      row.id = p.2) := by
  induction files generalizing db g m r with
  | nil =>
    simp only [importNodesPhase, Except.ok.injEq, Prod.mk.injEq] at hrun
    obtain ⟨h1, h2, h3, h4⟩ := hrun
    subst h1; subst h2; subst h3; subst h4
    exact ⟨⟨[], [], by simp, by simp, by simp, by simp⟩, rfl, rfl, hids,
      le_refl _, by simp, hminv⟩
  | cons n rest ih =>
    simp only [List.map_cons, List.nodup_cons] at hnodup
    obtain ⟨hnotin, hnodup_rest⟩ := hnodup
    simp only [importNodesPhase] at hrun
    cases hg : get_node_by_hash db n.sha256 with
    | some existing =>
      rw [hg] at hrun
      simp only at hrun
      have hminv' : ∀ p ∈ m ++ [(n.sha256, existing.id)],
          ∃ row, get_node_by_hash db p.1 = some row ∧ row.id = p.2 := by
        intro p hp
        rcases List.mem_append.mp hp with hp | hp
        · exact hminv p hp
        · simp only [List.mem_singleton] at hp
          subst hp
          exact ⟨existing, hg, rfl⟩
      have ihr := ih db g (m ++ [(n.sha256, existing.id)])
        { r with nodes_skipped := r.nodes_skipped + 1 }
        hrun hnodup_rest hids hminv'
      obtain ⟨hpre, hedges, hgedges, hids1, hnext1, hskip, hminv1⟩ := ihr
      refine ⟨hpre, hedges, hgedges, hids1, hnext1, ?_, hminv1⟩
      rw [hskip]
      rw [List.filter_cons_of_pos (by simp [hg])]
      simp only [List.length_cons]
      omega
    | none =>
      rw [hg] at hrun
      simp only at hrun
      cases hrm : rom_metadata_from_export n with
      | error e =>
        rw [hrm] at hrun
        exact Except.noConfusion hrun
      | ok rom_meta =>
        rw [hrm] at hrun
        simp only at hrun
        have hsha : rom_meta.sha256 = n.sha256 := by
          unfold rom_metadata_from_export at hrm
          cases hrt : RomType.fromStr n.rom_type with
          | none => rw [hrt] at hrm; exact Except.noConfusion hrm
          | some rt => rw [hrt] at hrm; cases hrm; rfl
        cases hins : insert_node db rom_meta (node_metadata_from_export n)
            with
        | error e =>
          rw [hins] at hrun
          exact Except.noConfusion hrun
        | ok pr =>
          obtain ⟨db_id, dbI⟩ := pr
          rw [hins] at hrun
          simp only at hrun
          obtain ⟨hnid, hIedges, hIneid, hInext, hnone, row, hrownodes,
            hrowid, hrowsha⟩ := insert_node_ok_spec db rom_meta _ db_id dbI
            hins
          have hrowsha' : row.sha256 = n.sha256 := by rw [hrowsha, hsha]
          have hnoneN : get_node_by_hash db n.sha256 = none := hg
          have hids' : ∀ rw1 ∈ dbI.nodes, rw1.id < dbI.nextNodeId := by
            intro rw1 hrw1
            rw [hrownodes] at hrw1
            rw [hInext]
            rcases List.mem_append.mp hrw1 with hh | hh
            · have := hids rw1 hh
              omega
            · simp only [List.mem_singleton] at hh
              subst hh
              omega
          have hminv' : ∀ p ∈ m ++ [(n.sha256, db_id)],
              ∃ rw1, get_node_by_hash dbI p.1 = some rw1 ∧
                rw1.id = p.2 := by
            intro p hp
            rcases List.mem_append.mp hp with hp | hp
            · obtain ⟨rw1, hrw1, hid1⟩ := hminv p hp
              exact ⟨rw1,
                get_node_by_hash_append_some db dbI [row] p.1 rw1
                  hrownodes hrw1, hid1⟩
            · simp only [List.mem_singleton] at hp
              subst hp
              refine ⟨map_row_to_node_row row,
                get_node_by_hash_append_new db dbI row n.sha256 hrownodes
                  hnoneN hrowsha', ?_⟩
              show row.id = db_id
              rw [hrowid, hnid]
          have ihr := ih dbI _ (m ++ [(n.sha256, db_id)])
            { r with nodes_added := r.nodes_added + 1 }
            hrun hnodup_rest hids' hminv'
          obtain ⟨⟨extra, gextra, hdbn, hgn, hcouple, hlow⟩, hedges1,
            hgedges1, hids1, hnext1, hskip, hminv1⟩ := ihr
          have hcount : (rest.filter (fun x =>
              (get_node_by_hash dbI x.sha256).isSome)).length =
              (rest.filter (fun x =>
                (get_node_by_hash db x.sha256).isSome)).length := by
            congr 1
            apply List.filter_congr
            intro x hx
            show (get_node_by_hash dbI x.sha256).isSome =
              (get_node_by_hash db x.sha256).isSome
            have hxsha : row.sha256 ≠ x.sha256 := by
              rw [hrowsha']
              intro hcon
              exact hnotin (hcon ▸ (List.mem_map.mpr ⟨x, hx, rfl⟩))
            cases hgx : get_node_by_hash db x.sha256 with
            | some rx =>
              rw [get_node_by_hash_append_some db dbI [row] x.sha256 rx
                hrownodes hgx]
            | none =>
              rw [get_node_by_hash_append_none db dbI [row] x.sha256
                hrownodes hgx
                (by intro rr hrr; simp only [List.mem_singleton] at hrr;
                    subst hrr; exact hxsha)]
          refine ⟨⟨row :: extra,
            { db_id := db_id, sha256 := n.sha256, filename := n.filename,
              title := (node_metadata_from_export n).title,
              version := (node_metadata_from_export n).version,
              rom_type := rom_meta.rom_type } :: gextra, ?_, ?_, ?_, ?_⟩,
            hedges1.trans hIedges, hgedges1, hids1, ?_, ?_, hminv1⟩
          · rw [hdbn, hrownodes, List.append_cons]
            simp
          · rw [hgn]
            simp
          · intro rw1 hrw1
            rcases List.mem_cons.mp hrw1 with hh | hh
            · subst hh
              exact ⟨_, List.mem_cons_self _ _, hrowsha'.symm ▸ rfl⟩
            · obtain ⟨gn, hgnm, hgns⟩ := hcouple rw1 hh
              exact ⟨gn, List.mem_cons_of_mem _ hgnm, hgns⟩
          · intro rw1 hrw1
            rcases List.mem_cons.mp hrw1 with hh | hh
            · subst hh
              omega
            · have := hlow rw1 hh
              rw [hInext] at this
              omega
          · rw [hInext] at hnext1
            omega
          · rw [hskip, hcount]
            rw [List.filter_cons_of_neg (by simp [hg])]

/-- A resolved endpoint names a row of the store. -/
theorem resolveEndpoint_some_get (m : List (Sha256 × Nat)) (db : Db)
    (h : Sha256) (sid : Nat)
    (hminv : ∀ p ∈ m, ∃ row, get_node_by_hash db p.1 = some row ∧
      row.id = p.2)
    (hres : resolveEndpoint m db h = some sid) :
    ∃ row, get_node_by_hash db h = some row ∧ row.id = sid := by
  unfold resolveEndpoint at hres
  cases hm : m.lookup h with
  | some v =>
    rw [hm] at hres
    simp only at hres
    cases hres
    exact hminv (h, sid) (lookup_mem m h sid hm)
  | none =>
    rw [hm] at hres
    obtain ⟨row, hrow, hid⟩ := Option.map_eq_some'.mp hres
    exact ⟨row, hrow, hid⟩

/-- The edge loop of `execute_import`: nodes are untouched, repository and
graph edges only grow, `nodes_skipped` is unchanged, and every manifest
edge both of whose endpoint hashes name store rows ends up present (with
those rows' ids) in the repository and (between those hashes) in the
graph — freshly inserted when new, already present when
`DiffAlreadyExists`. -/
theorem importEdgesPhase_spec
    (diffs : List ExportEdge) (db : Db) (g : RomGraph)
    (m : List (Sha256 × Nat)) (r : ImportResult)
    (db2 : Db) (g2 : RomGraph) (r2 : ImportResult)
    (hrun : importEdgesPhase diffs db g m r = .ok (db2, g2, r2))
    (hminv : ∀ p ∈ m, ∃ row, get_node_by_hash db p.1 = some row ∧
      row.id = p.2)
    (hgnodes : ∀ row ∈ db.nodes, ∃ gn ∈ g.nodes, gn.sha256 = row.sha256)
    (hidnodup : ∀ ra ∈ db.nodes, ∀ rb ∈ db.nodes, ra.id = rb.id → ra = rb)
    (hgedges : ∀ er ∈ db.edges, ∀ rs ∈ db.nodes, rs.id = er.source_id →
      ∀ rt ∈ db.nodes, rt.id = er.target_id →
      ∃ ge ∈ g.edges, ge.src = rs.sha256 ∧ ge.tgt = rt.sha256) :
    db2.nodes = db.nodes ∧ g2.nodes = g.nodes ∧
    (∃ extra, db2.edges = db.edges ++ extra) ∧
    (∃ gextra, g2.edges = g.edges ++ gextra) ∧
    r2.nodes_skipped = r.nodes_skipped ∧
    (∀ e ∈ diffs, ∀ rs rt,
      get_node_by_hash db e.source_sha256 = some rs →
      get_node_by_hash db e.target_sha256 = some rt →
      (∃ er ∈ db2.edges, er.source_id = rs.id ∧ er.target_id = rt.id) ∧
      (∃ ge ∈ g2.edges, ge.src = e.source_sha256 ∧
        ge.tgt = e.target_sha256)) := by
  induction diffs generalizing db g r with
  | nil =>
    simp only [importEdgesPhase, Except.ok.injEq, Prod.mk.injEq] at hrun
    obtain ⟨h1, h2, h3⟩ := hrun
    subst h1; subst h2; subst h3
    exact ⟨rfl, rfl, ⟨[], by simp⟩, ⟨[], by simp⟩, rfl, by simp⟩
  | cons e rest ih =>
    simp only [importEdgesPhase] at hrun
    cases hres : resolveEndpoint m db e.source_sha256 with
    | none =>
      rw [hres] at hrun
      obtain ⟨hn, hgn, hpre, hgpre, hskip, htail⟩ :=
        ih db g r hrun hminv hgnodes hidnodup hgedges
      refine ⟨hn, hgn, hpre, hgpre, hskip, ?_⟩
      intro e1 he1 rs rt hrs hrt
      rcases List.mem_cons.mp he1 with he1 | he1
      · subst he1
        rw [resolveEndpoint_of_get m db _ rs hminv hrs] at hres
        exact Option.noConfusion hres
      · exact htail e1 he1 rs rt hrs hrt
    | some sid =>
      rw [hres] at hrun
      simp only at hrun
      cases hrest : resolveEndpoint m db e.target_sha256 with
      | none =>
        rw [hrest] at hrun
        obtain ⟨hn, hgn, hpre, hgpre, hskip, htail⟩ :=
          ih db g r hrun hminv hgnodes hidnodup hgedges
        refine ⟨hn, hgn, hpre, hgpre, hskip, ?_⟩
        intro e1 he1 rs rt hrs hrt
        rcases List.mem_cons.mp he1 with he1 | he1
        · subst he1
          rw [resolveEndpoint_of_get m db _ rt hminv hrt] at hrest
          exact Option.noConfusion hrest
        · exact htail e1 he1 rs rt hrs hrt
      | some tid =>
        rw [hrest] at hrun
        simp only at hrun
        obtain ⟨rowS, hrowS, hidS⟩ :=
          resolveEndpoint_some_get m db _ sid hminv hres
        obtain ⟨rowT, hrowT, hidT⟩ :=
          resolveEndpoint_some_get m db _ tid hminv hrest
        obtain ⟨snS, hsnSm, hsnSsha, hsnSid, hsnSmap⟩ :=
          get_node_by_hash_some_mem db _ rowS hrowS
        obtain ⟨snT, hsnTm, hsnTsha, hsnTid, hsnTmap⟩ :=
          get_node_by_hash_some_mem db _ rowT hrowT
        have hgsomeS : (graphNodeByHash g e.source_sha256).isSome = true := by
          obtain ⟨gn, hgnm, hgnsha⟩ := hgnodes snS hsnSm
          unfold graphNodeByHash
          rw [List.find?_isSome]
          exact ⟨gn, hgnm, by simp [hgnsha, hsnSsha]⟩
        have hgsomeT : (graphNodeByHash g e.target_sha256).isSome = true := by
          obtain ⟨gn, hgnm, hgnsha⟩ := hgnodes snT hsnTm
          unfold graphNodeByHash
          rw [List.find?_isSome]
          exact ⟨gn, hgnm, by simp [hgnsha, hsnTsha]⟩
        cases hins : insert_edge db sid tid e.diff_path e.diff_size with
        | ok pr =>
          obtain ⟨eid, dbE⟩ := pr
          rw [hins] at hrun
          simp only [hgsomeS, hgsomeT, Bool.and_self, if_true] at hrun
          obtain ⟨hEnodes, hEnext, hEedges⟩ :=
            insert_edge_ok_spec db sid tid e.diff_path e.diff_size eid dbE
              hins
          have hget_eq : ∀ hh, get_node_by_hash dbE hh =
              get_node_by_hash db hh :=
            fun hh => get_node_by_hash_nodes_eq db dbE hh hEnodes
          have hminv' : ∀ p ∈ m, ∃ row,
              get_node_by_hash dbE p.1 = some row ∧ row.id = p.2 := by
            intro p hp
            rw [hget_eq]
            exact hminv p hp
          have hgnodes' : ∀ row ∈ dbE.nodes,
              ∃ gn ∈ (RomGraph.mk g.nodes (g.edges ++
                [{ src := e.source_sha256, tgt := e.target_sha256,
                   data := { db_id := eid, diff_path := e.diff_path,
                             diff_size := e.diff_size } }])).nodes,
              gn.sha256 = row.sha256 := by
            intro row hrow
            rw [hEnodes] at hrow
            exact hgnodes row hrow
          have hidnodup' : ∀ ra ∈ dbE.nodes, ∀ rb ∈ dbE.nodes,
              ra.id = rb.id → ra = rb := by
            rw [hEnodes]
            exact hidnodup
          have hgedges' : ∀ er ∈ dbE.edges, ∀ rs ∈ dbE.nodes,
              rs.id = er.source_id → ∀ rt ∈ dbE.nodes,
              rt.id = er.target_id →
              ∃ ge ∈ (g.edges ++
                [{ src := e.source_sha256, tgt := e.target_sha256,
                   data := { db_id := eid, diff_path := e.diff_path,
                             diff_size := e.diff_size } }]),
              ge.src = rs.sha256 ∧ ge.tgt = rt.sha256 := by
            intro er her rs hrs hrsid rt hrt hrtid
            rw [hEnodes] at hrs hrt
            rw [hEedges] at her
            rcases List.mem_append.mp her with her | her
            · obtain ⟨ge, hge, hge2⟩ := hgedges er her rs hrs hrsid rt hrt
                hrtid
              exact ⟨ge, List.mem_append_left _ hge, hge2⟩
            · simp only [List.mem_singleton] at her
              subst her
              have hrseq : rs = snS := hidnodup rs hrs snS hsnSm
                (by rw [hrsid]; simp [hsnSid, hidS])
              have hrteq : rt = snT := hidnodup rt hrt snT hsnTm
                (by rw [hrtid]; simp [hsnTid, hidT])
              refine ⟨_, List.mem_append_right _ (List.mem_singleton.mpr
                rfl), ?_, ?_⟩
              · rw [hrseq, hsnSsha]
              · rw [hrteq, hsnTsha]
          obtain ⟨hn, hgn, ⟨extra, hpre⟩, ⟨gextra, hgpre⟩, hskip, htail⟩ :=
            ih dbE _ _ hrun hminv' hgnodes' hidnodup' hgedges'
          refine ⟨hn.trans hEnodes, hgn, ?_, ?_, hskip, ?_⟩
          · exact ⟨_, by rw [hpre, hEedges, List.append_assoc]⟩
          · exact ⟨_, by rw [hgpre, List.append_assoc]⟩
          · intro e1 he1 rs rt hrs hrt
            rcases List.mem_cons.mp he1 with he1 | he1
            · subst he1
              have hsid : sid = rs.id := by
                rw [resolveEndpoint_of_get m db _ rs hminv hrs] at hres
                exact (Option.some.inj hres).symm
              have htid : tid = rt.id := by
                rw [resolveEndpoint_of_get m db _ rt hminv hrt] at hrest
                exact (Option.some.inj hrest).symm
              constructor
              · refine ⟨EdgeRow.mk db.nextEdgeId sid tid e1.diff_path
                  e1.diff_size, ?_, (by exact hsid), (by exact htid)⟩
                rw [hpre, hEedges]
                exact List.mem_append_left _
                  (List.mem_append_right _ (List.mem_singleton.mpr rfl))
              · refine ⟨GEdge.mk e1.source_sha256 e1.target_sha256
                  (DiffEdgeData.mk eid e1.diff_path e1.diff_size),
                  ?_, rfl, rfl⟩
                rw [hgpre]
                exact List.mem_append_left _
                  (List.mem_append_right _ (List.mem_singleton.mpr rfl))
            · obtain ⟨h1, h2⟩ := htail e1 he1 rs rt
                (by rw [hget_eq]; exact hrs) (by rw [hget_eq]; exact hrt)
              exact ⟨h1, h2⟩
        | error err =>
          rw [hins] at hrun
          obtain ⟨herr, hany⟩ :=
            insert_edge_error_spec db sid tid e.diff_path e.diff_size err
              hins
          subst herr
          simp only at hrun
          obtain ⟨hn, hgn, hpre, hgpre, hskip, htail⟩ :=
            ih db g _ hrun hminv hgnodes hidnodup hgedges
          refine ⟨hn, hgn, hpre, hgpre, hskip, ?_⟩
          intro e1 he1 rs rt hrs hrt
          rcases List.mem_cons.mp he1 with he1 | he1
          · subst he1
            have hsid : sid = rs.id := by
              rw [resolveEndpoint_of_get m db _ rs hminv hrs] at hres
              exact (Option.some.inj hres).symm
            have htid : tid = rt.id := by
              rw [resolveEndpoint_of_get m db _ rt hminv hrt] at hrest
              exact (Option.some.inj hrest).symm
            obtain ⟨er, herm, herids⟩ := List.any_eq_true.mp hany
            simp only [Bool.and_eq_true, beq_iff_eq] at herids
            constructor
            · obtain ⟨extra, hpre⟩ := hpre
              exact ⟨er, by rw [hpre]; exact List.mem_append_left _ herm,
                by rw [herids.1, hsid], by rw [herids.2, htid]⟩
            · obtain ⟨snS', hsnS'm, hsnS'sha, hsnS'id, _⟩ :=
                get_node_by_hash_some_mem db _ rs hrs
              obtain ⟨snT', hsnT'm, hsnT'sha, hsnT'id, _⟩ :=
                get_node_by_hash_some_mem db _ rt hrt
              obtain ⟨ge, hgem, hge1, hge2⟩ := hgedges er herm snS' hsnS'm
                (by rw [hsnS'id, ← hsid, herids.1]) snT' hsnT'm
                (by rw [hsnT'id, ← htid, herids.2])
              obtain ⟨gextra, hgpre⟩ := hgpre
              exact ⟨ge, by rw [hgpre]; exact List.mem_append_left _ hgem,
                by rw [hge1, hsnS'sha], by rw [hge2, hsnT'sha]⟩
          · exact htail e1 he1 rs rt hrs hrt

/-- The node loop with `overwrite = false` preserves functionality of
row ids (fresh rows get ids at or above the old `nextNodeId`). -/
theorem importNodesPhase_false_idnodup
    (files : List ExportNode) (db : Db) (g : RomGraph)
    (m : List (Sha256 × Nat)) (r : ImportResult)
    (db1 : Db) (g1 : RomGraph) (m1 : List (Sha256 × Nat))
    (r1 : ImportResult)
    (hrun : importNodesPhase false files db g m r = .ok (db1, g1, m1, r1))
    (hids : ∀ row ∈ db.nodes, row.id < db.nextNodeId)
    (hidnodup : ∀ ra ∈ db.nodes, ∀ rb ∈ db.nodes, ra.id = rb.id →
      ra = rb) :
    ∀ ra ∈ db1.nodes, ∀ rb ∈ db1.nodes, ra.id = rb.id → ra = rb := by
  induction files generalizing db g m r with
  | nil =>
    simp only [importNodesPhase, Except.ok.injEq, Prod.mk.injEq] at hrun
    obtain ⟨h1, _, _, _⟩ := hrun
    subst h1
    exact hidnodup
  | cons n rest ih =>
    simp only [importNodesPhase] at hrun
    cases hg : get_node_by_hash db n.sha256 with
    | some existing =>
      rw [hg] at hrun
      simp only at hrun
      exact ih db g _ _ hrun hids hidnodup
    | none =>
      rw [hg] at hrun
      simp only at hrun
      cases hrm : rom_metadata_from_export n with
      | error e =>
        rw [hrm] at hrun
        exact Except.noConfusion hrun
      | ok rom_meta =>
        rw [hrm] at hrun
        simp only at hrun
        cases hins : insert_node db rom_meta (node_metadata_from_export n)
            with
        | error e =>
          rw [hins] at hrun
          exact Except.noConfusion hrun
        | ok pr =>
          obtain ⟨nid, dbI⟩ := pr
          rw [hins] at hrun
          simp only at hrun
          obtain ⟨hnid, hIe, hInextE, hInextN, hnone2, row, hIn, hrowid,
            hrowsha⟩ := insert_node_ok_spec db rom_meta
              (node_metadata_from_export n) nid dbI hins
          have hids' : ∀ rw1 ∈ dbI.nodes, rw1.id < dbI.nextNodeId := by
            intro rw1 h
            rw [hIn] at h
            rw [hInextN]
            rcases List.mem_append.mp h with h | h
            · have := hids rw1 h
              omega
            · rw [List.mem_singleton] at h
              subst h
              rw [hrowid]
              omega
          have hidnodup' : ∀ ra ∈ dbI.nodes, ∀ rb ∈ dbI.nodes,
              ra.id = rb.id → ra = rb := by
            intro ra hra rb hrb heq
            rw [hIn] at hra hrb
            rcases List.mem_append.mp hra with hra | hra <;>
              rcases List.mem_append.mp hrb with hrb | hrb
            · exact hidnodup ra hra rb hrb heq
            · exfalso
              have h1 := hids ra hra
              rw [List.mem_singleton] at hrb
              subst hrb
              rw [heq, hrowid] at h1
              exact lt_irrefl _ h1
            · exfalso
              have h1 := hids rb hrb
              rw [List.mem_singleton] at hra
              subst hra
              rw [← heq, hrowid] at h1
              exact lt_irrefl _ h1
            · rw [List.mem_singleton] at hra hrb
              rw [hra, hrb]
          exact ih dbI _ _ _ hrun hids' hidnodup'

/-- The patch-copy loop touches only `diffs_copied`. -/
theorem importDiffsPhase_nodes_skipped
    (hashFn : List BsdiffRecord → Sha256) (diffs : List ExportEdge)
    (locFiles folder : DiffFiles) (r : ImportResult)
    (loc2 : DiffFiles) (r3 : ImportResult)
    (hrun : importDiffsPhase hashFn diffs locFiles folder r =
      .ok (loc2, r3)) :
    r3.nodes_skipped = r.nodes_skipped := by
  induction diffs generalizing locFiles r with
  | nil =>
    simp only [importDiffsPhase, Except.ok.injEq, Prod.mk.injEq] at hrun
    rw [hrun.2]
  | cons e rest ih =>
    simp only [importDiffsPhase] at hrun
    split at hrun
    · exact ih locFiles r hrun
    · split at hrun
      · exact ih locFiles r hrun
      · split at hrun
        · split at hrun
          · exact Except.noConfusion hrun
          · have h := ih _ _ hrun
            exact h
        · have h := ih _ _ hrun
          exact h

/-- C8: an import with `overwrite = false` leaves every pre-existing node
row — its user metadata included — unchanged (the final nodes table is the
old one plus fresh rows), counts exactly the manifest nodes whose hash
already exists locally in `nodes_skipped`, and still links in every
manifest edge whose endpoint hashes both name rows of the resulting store:
the repository gains an edge between those rows' ids and the graph an edge
between those hashes. -/
theorem C8_import_no_overwrite
    (hashFn : List BsdiffRecord → Sha256) (manifest : ExportManifest)
    (db : Db) (g : RomGraph) (locFiles folderFiles : DiffFiles)
    (db2 : Db) (g2 : RomGraph) (loc2 : DiffFiles) (res : ImportResult)
    (hrun : execute_import hashFn manifest false db g locFiles
      folderFiles = .ok (db2, g2, loc2, res))
    (hnodup : (manifest.files.map (fun n => n.sha256)).Nodup)
    (hids : ∀ row ∈ db.nodes, row.id < db.nextNodeId)
    (hidnodup : ∀ ra ∈ db.nodes, ∀ rb ∈ db.nodes, ra.id = rb.id →
      ra = rb)
    (hgnodes : ∀ row ∈ db.nodes, ∃ gn ∈ g.nodes, gn.sha256 = row.sha256)
    (hgedges : ∀ er ∈ db.edges, ∀ rs ∈ db.nodes, rs.id = er.source_id →
      ∀ rt ∈ db.nodes, rt.id = er.target_id →
      ∃ ge ∈ g.edges, ge.src = rs.sha256 ∧ ge.tgt = rt.sha256)
    (hefk : ∀ er ∈ db.edges, er.source_id < db.nextNodeId ∧
      er.target_id < db.nextNodeId) :
    (∃ extra, db2.nodes = db.nodes ++ extra) ∧
    res.nodes_skipped = (manifest.files.filter
      (fun n => (get_node_by_hash db n.sha256).isSome)).length ∧
    (∀ e ∈ manifest.diffs, ∀ rs rt,
      get_node_by_hash db2 e.source_sha256 = some rs →
      get_node_by_hash db2 e.target_sha256 = some rt →
      (∃ er ∈ db2.edges, er.source_id = rs.id ∧ er.target_id = rt.id) ∧
      (∃ ge ∈ g2.edges, ge.src = e.source_sha256 ∧
        ge.tgt = e.target_sha256)) := by
  unfold execute_import at hrun
  cases hn : importNodesPhase false manifest.files db g []
      emptyImportResult with
  | error e =>
    rw [hn] at hrun
    exact Except.noConfusion hrun
  | ok q =>
    obtain ⟨db1, g1, m, r1⟩ := q
    rw [hn] at hrun
    simp only at hrun
    cases he : importEdgesPhase manifest.diffs db1 g1 m r1 with
    | error e =>
      rw [he] at hrun
      exact Except.noConfusion hrun
    | ok q2 =>
      obtain ⟨db2i, g2i, r2⟩ := q2
      rw [he] at hrun
      simp only at hrun
      cases hd : importDiffsPhase hashFn manifest.diffs locFiles
          folderFiles r2 with
      | error e =>
        rw [hd] at hrun
        exact Except.noConfusion hrun
      | ok q3 =>
        obtain ⟨loc2i, r3⟩ := q3
        rw [hd] at hrun
        simp only [Except.ok.injEq, Prod.mk.injEq] at hrun
        obtain ⟨hdb2, hg2, hloc2, hres⟩ := hrun
        subst hdb2; subst hg2; subst hloc2; subst hres
        obtain ⟨⟨extra, gextra, hdbn, hgn, hcouple, hgeq⟩, hedb, hedg,
          hids1, hnext1, hskip1, hminv1⟩ :=
          importNodesPhase_false_spec manifest.files db g []
            emptyImportResult db1 g1 m r1 hn hnodup hids (by simp)
        have hidnodup1 := importNodesPhase_false_idnodup manifest.files
          db g [] emptyImportResult db1 g1 m r1 hn hids hidnodup
        have hgnodes1 : ∀ row ∈ db1.nodes, ∃ gn ∈ g1.nodes,
            gn.sha256 = row.sha256 := by
          intro row hr
          rw [hdbn] at hr
          rw [hgn]
          rcases List.mem_append.mp hr with hr | hr
          · obtain ⟨gn, hgm, hgs⟩ := hgnodes row hr
            exact ⟨gn, List.mem_append_left _ hgm, hgs⟩
          · obtain ⟨gn, hgm, hgs⟩ := hcouple row hr
            exact ⟨gn, List.mem_append_right _ hgm, hgs⟩
        have hgedges1 : ∀ er ∈ db1.edges, ∀ rs ∈ db1.nodes,
            rs.id = er.source_id → ∀ rt ∈ db1.nodes,
            rt.id = er.target_id →
            ∃ ge ∈ g1.edges, ge.src = rs.sha256 ∧ ge.tgt = rt.sha256 := by
          intro er her rs hrs hrsid rt hrt hrtid
          rw [hedb] at her
          rw [hedg]
          rw [hdbn] at hrs hrt
          have hrs' : rs ∈ db.nodes := by
            rcases List.mem_append.mp hrs with h | h
            · exact h
            · exfalso
              have h1 := hgeq rs h
              have h2 := (hefk er her).1
              omega
          have hrt' : rt ∈ db.nodes := by
            rcases List.mem_append.mp hrt with h | h
            · exact h
            · exfalso
              have h1 := hgeq rt h
              have h2 := (hefk er her).2
              omega
          exact hgedges er her rs hrs' hrsid rt hrt' hrtid
        obtain ⟨hn2, hgn2, hpreE, hgpreE, hskip2, hE3⟩ :=
          importEdgesPhase_spec manifest.diffs db1 g1 m r1 db2i g2i r2 he
            hminv1 hgnodes1 hidnodup1 hgedges1
        have hskip3 := importDiffsPhase_nodes_skipped hashFn
          manifest.diffs locFiles folderFiles r2 loc2i r3 hd
        refine ⟨⟨extra, by rw [hn2, hdbn]⟩, ?_, ?_⟩
        · rw [hskip3, hskip2, hskip1]
          simp [emptyImportResult]
        · intro e he1 rs rt hrs hrt
          have hget_eq : ∀ hh, get_node_by_hash db2i hh =
              get_node_by_hash db1 hh :=
            fun hh => get_node_by_hash_nodes_eq db1 db2i hh hn2
          rw [hget_eq] at hrs hrt
          exact hE3 e he1 rs rt hrs hrt

/-- Two-node store for the C8 witness: `A` (hash `7`, id `1`) and `B`
(hash `9`, id `2`), no edges. -/
def c8Db : Db :=
  { nodes := [sampleStoredNode, sampleStoredNodeB], edges := [],
    nextNodeId := 3, nextEdgeId := 1 }

/-- Matching graph for the C8 witness. -/
def c8Graph : RomGraph := { nodes := [gnA, gnB], edges := [] }

/-- Manifest for the C8 witness: one node whose hash `7` already exists
locally, and one edge between the two local hashes. -/
def c8Manifest : ExportManifest where
  files := [
    { sha256 := 7, filename := none, title := "A2", rom_type := "NES",
      version := none, source_url := none, release_date := none,
      tags := [], description := none, source_file_header := none }]
  diffs := [
    { source_sha256 := 7, target_sha256 := 9, diff_path := (7, 9),
      diff_size := 3, sha256 := none }]

/-- Store after the witness import: same rows, one new edge. -/
def c8Db2 : Db where
  nodes := [sampleStoredNode, sampleStoredNodeB]
  edges := [
    { id := 1, source_id := 1, target_id := 2, diff_path := (7, 9),
      diff_size := 3 }]
  nextNodeId := 3
  nextEdgeId := 2

/-- Graph after the witness import. -/
def c8G2 : RomGraph where
  nodes := [gnA, gnB]
  edges := [
    { src := 7, tgt := 9,
      data := { db_id := 1, diff_path := (7, 9), diff_size := 3 } }]

/-- Result counters of the witness import: one node skipped, one edge
added. -/
def c8Res : ImportResult :=
  { nodes_added := 0, nodes_skipped := 1, nodes_overwritten := 0,
    edges_added := 1, edges_skipped := 0, diffs_copied := 0 }

/-- Witness for C8: importing a one-node, one-edge manifest into the
two-node store with `overwrite = false`. -/
theorem C8_import_no_overwrite_witness :
    (∃ extra, c8Db2.nodes = c8Db.nodes ++ extra) ∧
    c8Res.nodes_skipped = (c8Manifest.files.filter
      (fun n => (get_node_by_hash c8Db n.sha256).isSome)).length ∧
    (∀ e ∈ c8Manifest.diffs, ∀ rs rt,
      get_node_by_hash c8Db2 e.source_sha256 = some rs →
      get_node_by_hash c8Db2 e.target_sha256 = some rt →
      (∃ er ∈ c8Db2.edges, er.source_id = rs.id ∧ er.target_id = rt.id) ∧
      (∃ ge ∈ c8G2.edges, ge.src = e.source_sha256 ∧
        ge.tgt = e.target_sha256)) :=
  C8_import_no_overwrite (fun _ => 0) c8Manifest c8Db c8Graph [] []
    c8Db2 c8G2 [] c8Res rfl (by decide) (by decide) (by decide)
    (by decide) (by decide) (by decide)

/-! ### Walks and path well-formedness (for the BFS claim) -/

/-- `edges` has a directed edge from `u` to `v`. -/
def hasEdgeB (edges : List GEdge) (u v : Nat) : Bool :=
  edges.any (fun e => e.src == u && e.tgt == v)

/-- `vs` is a sequence of successive out-neighbors starting at `u`. -/
def walkSeq (edges : List GEdge) : Nat → List Nat → Bool
  | _, [] => true
  | u, v :: vs => hasEdgeB edges u v && walkSeq edges v vs

/-- The final node of the walk `u :: vs`. -/
def walkEnd (u : Nat) (vs : List Nat) : Nat := vs.getLastD u

/-- Every step carries an edge of `edges` leading from the previous node
to it. -/
def stepsOk (edges : List GEdge) : Nat → List PathStep → Bool
  | _, [] => true
  | prev, s :: rest =>
    (match s.edge with
     | some d => edges.any (fun e =>
         e.src == prev && e.tgt == s.node && e.data == d)
     | none => false) && stepsOk edges s.node rest

/-- The path shape claimed for `find_path`: it begins with the source
carrying no edge, every later step carries the edge of `edges` used to
reach it from its predecessor, and it ends at the target. -/
def pathOk (edges : List GEdge) (source target : Nat)
    (p : List PathStep) : Bool :=
  match p with
  | [] => false
  | s :: rest =>
    s.node == source && s.edge.isNone && stepsOk edges source rest &&
      (walkEnd source (rest.map (fun t => t.node)) == target)

/-- The keys of the `visited` map, in insertion order. -/
def visKeys (vis : Visited) : List Nat := vis.map (fun ent => ent.1)

/-- Every step is justified by a `visited` entry (node mapped to
(previous node, edge)). -/
def visChainOk (vis : Visited) : Nat → List PathStep → Bool
  | _, [] => true
  | prev, s :: rest =>
    (match s.edge with
     | some d => decide ((s.node, (prev, d)) ∈ vis)
     | none => false) && visChainOk vis s.node rest

theorem walkEnd_nil (u : Nat) : walkEnd u [] = u := rfl

theorem walkEnd_concat (u v : Nat) (vs : List Nat) :
    walkEnd u (vs ++ [v]) = v := by
  unfold walkEnd
  simp [List.getLastD_concat]

theorem walkEnd_cons (u v : Nat) (vs : List Nat) :
    walkEnd u (v :: vs) = walkEnd v vs := by
  cases vs with
  | nil => rfl
  | cons w ws =>
    unfold walkEnd
    rw [List.getLastD_cons, List.getLastD_cons]

theorem walkSeq_concat (edges : List GEdge) (u v : Nat) (vs : List Nat) :
    walkSeq edges u (vs ++ [v]) =
      (walkSeq edges u vs && hasEdgeB edges (walkEnd u vs) v) := by
  induction vs generalizing u with
  | nil =>
    simp [walkSeq, walkEnd_nil]
  | cons w ws ih =>
    show (hasEdgeB edges u w && walkSeq edges w (ws ++ [v])) =
      ((hasEdgeB edges u w && walkSeq edges w ws) &&
        hasEdgeB edges (walkEnd u (w :: ws)) v)
    rw [ih, walkEnd_cons]
    exact (Bool.and_assoc _ _ _).symm

theorem visLookup_isSome (vis : Visited) (k : Nat) :
    (vis.lookup k).isSome = true ↔ k ∈ visKeys vis := by
  induction vis with
  | nil => simp [List.lookup, visKeys]
  | cons ent rest ih =>
    obtain ⟨k', v⟩ := ent
    by_cases hk : k = k'
    · subst hk
      simp [List.lookup, visKeys]
    · have hbeq : (k == k') = false := by simp [hk]
      simp only [visKeys] at ih
      simp [List.lookup, hbeq, visKeys, hk, ih]

theorem visLookup_mem_of_nodup (vis : Visited) (k : Nat)
    (v : Nat × DiffEdgeData) (hnd : (visKeys vis).Nodup)
    (hmem : (k, v) ∈ vis) : vis.lookup k = some v := by
  induction vis with
  | nil => simp at hmem
  | cons ent rest ih =>
    obtain ⟨k', v'⟩ := ent
    simp only [visKeys, List.map_cons, List.nodup_cons] at hnd
    obtain ⟨hnotin, hnd'⟩ := hnd
    rcases List.mem_cons.mp hmem with h | h
    · injection h with h1 h2
      subst h1
      subst h2
      simp [List.lookup]
    · have hk : k ≠ k' := by
        intro he
        subst he
        exact hnotin (by
          simpa [visKeys] using List.mem_map_of_mem (fun e => e.1) h)
      have hbeq : (k == k') = false := by simp [hk]
      simp only [List.lookup, hbeq]
      exact ih hnd' h

theorem nodup_length_le {l l' : List Nat} (hn : l.Nodup) (h : l ⊆ l') :
    l.length ≤ l'.length := by
  calc l.length = l.toFinset.card := (List.toFinset_card_of_nodup hn).symm
    _ ≤ l'.toFinset.card := Finset.card_le_card (by
        intro x hx
        rw [List.mem_toFinset] at hx ⊢
        exact h hx)
    _ ≤ l'.length := l'.toFinset_card_le

theorem visChainOk_concat (vis : Visited) (s : PathStep) :
    ∀ (u : Nat) (l : List PathStep),
    visChainOk vis u (l ++ [s]) = true ↔
      (visChainOk vis u l = true ∧ ∃ d, s.edge = some d ∧
        (s.node, (walkEnd u (l.map (fun t => t.node)), d)) ∈ vis) := by
  intro u l
  induction l generalizing u with
  | nil =>
    cases hse : s.edge with
    | none => simp [visChainOk, hse, walkEnd_nil]
    | some d => simp [visChainOk, hse, walkEnd_nil]
  | cons t ts ih =>
    have h1 : visChainOk vis u ((t :: ts) ++ [s]) =
        ((match t.edge with
          | some d => decide ((t.node, (u, d)) ∈ vis)
          | none => false) && visChainOk vis t.node (ts ++ [s])) := rfl
    have h2 : visChainOk vis u (t :: ts) =
        ((match t.edge with
          | some d => decide ((t.node, (u, d)) ∈ vis)
          | none => false) && visChainOk vis t.node ts) := rfl
    rw [h1, h2, Bool.and_eq_true, Bool.and_eq_true, ih t.node]
    simp only [List.map_cons, walkEnd_cons, and_assoc]

theorem visChainOk_stepsOk (edges : List GEdge) (vis : Visited)
    (hW1 : ∀ ent ∈ vis, ∃ e ∈ edges, e.src = ent.2.1 ∧ e.tgt = ent.1 ∧
      e.data = ent.2.2) :
    ∀ (u : Nat) (l : List PathStep), visChainOk vis u l = true →
      stepsOk edges u l = true := by
  intro u l
  induction l generalizing u with
  | nil =>
    intro _
    rfl
  | cons s rest ih =>
    intro h
    simp only [visChainOk, Bool.and_eq_true] at h
    obtain ⟨h1, h2⟩ := h
    cases hse : s.edge with
    | none =>
      rw [hse] at h1
      exact absurd h1 (by simp)
    | some d =>
      rw [hse] at h1
      simp only [decide_eq_true_eq] at h1
      obtain ⟨e, he, hsrc, htgt, hdata⟩ := hW1 _ h1
      simp only [stepsOk, hse, Bool.and_eq_true]
      refine ⟨?_, ih _ h2⟩
      rw [List.any_eq_true]
      exact ⟨e, he, by simp [hsrc, htgt, hdata]⟩

theorem stepsOk_walkSeq (edges : List GEdge) :
    ∀ (u : Nat) (l : List PathStep), stepsOk edges u l = true →
      walkSeq edges u (l.map (fun t => t.node)) = true := by
  intro u l
  induction l generalizing u with
  | nil =>
    intro _
    rfl
  | cons s rest ih =>
    intro h
    simp only [stepsOk, Bool.and_eq_true] at h
    obtain ⟨h1, h2⟩ := h
    simp only [List.map_cons, walkSeq, Bool.and_eq_true]
    refine ⟨?_, ih _ h2⟩
    cases hse : s.edge with
    | none =>
      rw [hse] at h1
      exact absurd h1 (by simp)
    | some d =>
      rw [hse] at h1
      rw [List.any_eq_true] at h1
      obtain ⟨e, he, hp⟩ := h1
      simp only [Bool.and_eq_true, beq_iff_eq] at hp
      obtain ⟨⟨hA, hB⟩, _⟩ := hp
      rw [hasEdgeB, List.any_eq_true]
      exact ⟨e, he, by simp [hA, hB]⟩

/-- What one pass of the inner edge loop does: it appends fresh entries
(all parented at `current`, justified by scanned edges, previously
unvisited and distinct from the source), keeps the keys duplicate-free,
and either reports the target found (last appended entry) with the queue
extended by the earlier fresh keys, or reports not-found with the queue
extended by all fresh keys, the target still unvisited, and every scanned
edge's head now visited or equal to the source. -/
theorem processEdges_spec (source target current : Nat)
    (es : List GEdge) :
    ∀ (vis : Visited) (queue : List Nat),
    (visKeys vis).Nodup → target ∉ visKeys vis →
    ∃ dl,
      (processEdges source target current es vis queue).1 = vis ++ dl ∧
      (∀ ent ∈ dl, ent.2.1 = current ∧
        (∃ e ∈ es, e.tgt = ent.1 ∧ e.data = ent.2.2) ∧
        ent.1 ∉ visKeys vis ∧ ent.1 ≠ source) ∧
      (visKeys (vis ++ dl)).Nodup ∧
      ((processEdges source target current es vis queue).2.2 = false →
        (processEdges source target current es vis queue).2.1 =
          queue ++ visKeys dl ∧
        target ∉ visKeys (vis ++ dl) ∧
        (∀ e ∈ es, e.tgt ∈ visKeys (vis ++ dl) ∨ e.tgt = source)) ∧
      ((processEdges source target current es vis queue).2.2 = true →
        ∃ dl0 dd, dl = dl0 ++ [(target, (current, dd))] ∧
          (processEdges source target current es vis queue).2.1 =
            queue ++ visKeys dl0) := by
  induction es with
  | nil =>
    intro vis queue hnd htgt
    refine ⟨[], by simp [processEdges], by simp, by simpa, ?_, ?_⟩
    · intro _
      refine ⟨by simp [processEdges, visKeys], by simpa, by simp⟩
    · intro h
      simp [processEdges] at h
  | cons e es ih =>
    intro vis queue hnd htgt
    by_cases hskip :
        ((vis.lookup e.tgt).isSome || e.tgt == source) = true
    · have hstep : processEdges source target current (e :: es) vis
          queue = processEdges source target current es vis queue := by
        simp only [processEdges]
        rw [if_pos hskip]
      rw [hstep]
      obtain ⟨dl, h1, h2, h3, h4, h5⟩ := ih vis queue hnd htgt
      refine ⟨dl, h1, ?_, h3, ?_, h5⟩
      · intro ent hent
        obtain ⟨ha, ⟨e', he', hb⟩, hc, hd⟩ := h2 ent hent
        exact ⟨ha, ⟨e', List.mem_cons_of_mem _ he', hb⟩, hc, hd⟩
      · intro hfalse
        obtain ⟨ha, hb, hc⟩ := h4 hfalse
        refine ⟨ha, hb, ?_⟩
        intro e' he'
        rcases List.mem_cons.mp he' with he' | he'
        · subst he'
          rcases Bool.or_eq_true_iff.mp hskip with hv | hs
          · left
            have : e'.tgt ∈ visKeys vis := (visLookup_isSome vis _).mp hv
            rw [visKeys, List.map_append]
            exact List.mem_append_left _ this
          · right
            exact beq_iff_eq.mp hs
        · exact hc e' he'
    · have hv : (vis.lookup e.tgt).isSome = false := by
        cases h : (vis.lookup e.tgt).isSome with
        | false => rfl
        | true => exact absurd (by rw [h]; simp) hskip
      have hs : (e.tgt == source) = false := by
        cases h : e.tgt == source with
        | false => rfl
        | true => exact absurd (by rw [h]; simp) hskip
      have hnotin : e.tgt ∉ visKeys vis := by
        intro hmem
        rw [← visLookup_isSome vis e.tgt] at hmem
        rw [hv] at hmem
        exact Bool.noConfusion hmem
      have hnsource : e.tgt ≠ source := by
        intro hh
        rw [hh] at hs
        simp at hs
      have hskipf : ((vis.lookup e.tgt).isSome || e.tgt == source) =
          false := by
        rw [hv, hs]
        rfl
      by_cases htb : (e.tgt == target) = true
      · have hteq : e.tgt = target := beq_iff_eq.mp htb
        have hstep : processEdges source target current (e :: es) vis
            queue = (vis ++ [(e.tgt, (current, e.data))], queue,
              true) := by
          simp only [processEdges]
          rw [if_neg (by rw [hskipf]; exact Bool.false_ne_true)]
          simp only [htb, if_true]
        rw [hstep]
        refine ⟨[(e.tgt, (current, e.data))], rfl, ?_, ?_, ?_, ?_⟩
        · intro ent hent
          rw [List.mem_singleton] at hent
          subst hent
          exact ⟨rfl, ⟨e, List.mem_cons_self _ _, rfl, rfl⟩, hnotin,
            hnsource⟩
        · rw [visKeys, List.map_append]
          refine List.Nodup.append hnd (by simp) ?_
          intro x hx hy
          simp only [List.map_cons, List.map_nil, List.mem_singleton]
            at hy
          subst hy
          exact hnotin hx
        · intro h
          exact absurd h (by simp)
        · intro _
          refine ⟨[], e.data, ?_, by simp [visKeys]⟩
          rw [hteq]
          rfl
      · have hstep : processEdges source target current (e :: es) vis
            queue = processEdges source target current es
              (vis ++ [(e.tgt, (current, e.data))]) (queue ++ [e.tgt])
            := by
          simp only [processEdges]
          rw [if_neg (by rw [hskipf]; exact Bool.false_ne_true)]
          simp only [htb]
          rw [if_neg Bool.false_ne_true]
        rw [hstep]
        have hnd' : (visKeys (vis ++ [(e.tgt, (current, e.data))])).Nodup
            := by
          rw [visKeys, List.map_append]
          refine List.Nodup.append hnd (by simp) ?_
          intro x hx hy
          simp only [List.map_cons, List.map_nil, List.mem_singleton]
            at hy
          subst hy
          exact hnotin hx
        have htgt' : target ∉
            visKeys (vis ++ [(e.tgt, (current, e.data))]) := by
          rw [visKeys, List.map_append]
          intro hmem
          rcases List.mem_append.mp hmem with h | h
          · exact htgt h
          · simp only [List.map_cons, List.map_nil, List.mem_singleton]
              at h
            rw [← h] at htb
            simp at htb
        obtain ⟨dl, h1, h2, h3, h4, h5⟩ :=
          ih (vis ++ [(e.tgt, (current, e.data))]) (queue ++ [e.tgt])
            hnd' htgt'
        have hassoc : vis ++ [(e.tgt, (current, e.data))] ++ dl =
            vis ++ ((e.tgt, (current, e.data)) :: dl) := by
          rw [List.append_assoc]
          rfl
        refine ⟨(e.tgt, (current, e.data)) :: dl, ?_, ?_, ?_, ?_, ?_⟩
        · rw [h1, hassoc]
        · intro ent hent
          rcases List.mem_cons.mp hent with hent | hent
          · subst hent
            exact ⟨rfl, ⟨e, List.mem_cons_self _ _, rfl, rfl⟩, hnotin,
              hnsource⟩
          · obtain ⟨ha, ⟨e', he', hb⟩, hc, hd⟩ := h2 ent hent
            refine ⟨ha, ⟨e', List.mem_cons_of_mem _ he', hb⟩, ?_, hd⟩
            intro hmem
            exact hc (by
              rw [visKeys, List.map_append]
              exact List.mem_append_left _ hmem)
        · rw [← hassoc]
          exact h3
        · intro hfalse
          obtain ⟨ha, hb, hc⟩ := h4 hfalse
          refine ⟨?_, ?_, ?_⟩
          · rw [ha, List.append_assoc]
            rfl
          · rw [← hassoc]
            exact hb
          · intro e' he'
            rcases List.mem_cons.mp he' with he' | he'
            · subst he'
              left
              rw [← hassoc]
              simp only [visKeys, List.map_append]
              exact List.mem_append_left _
                (List.mem_append_right _ (by simp))
            · rw [← hassoc]
              exact hc e' he'
        · intro htrue
          obtain ⟨dl0, dd, hdl, hq⟩ := h5 htrue
          refine ⟨(e.tgt, (current, e.data)) :: dl0, dd, ?_, ?_⟩
          · rw [hdl]
            rfl
          · rw [hq, List.append_assoc]
            rfl

/-- Backtracking from a visited node (or the source) yields the source
step followed by a `visited`-justified chain ending at that node; with any
depth assignment consistent with the `visited` parents, the chain's length
is the node's depth.  Requires duplicate-free keys and parents strictly
earlier in insertion order. -/
theorem reconsAux_spec (source : Nat) (vis : Visited)
    (hW2 : (visKeys vis).Nodup)
    (hW3 : ∀ ent ∈ vis, ent.2.1 = source ∨ (ent.2.1 ∈ visKeys vis ∧
      (visKeys vis).indexOf ent.2.1 < (visKeys vis).indexOf ent.1)) :
    ∀ (fuel k : Nat) (acc : List PathStep),
    ((k = source ∧ 1 ≤ fuel) ∨
      (k ∈ visKeys vis ∧ (visKeys vis).indexOf k + 2 ≤ fuel)) →
    ∃ rest, reconsAux source vis fuel k acc =
        ⟨source, none⟩ :: (rest ++ acc) ∧
      visChainOk vis source rest = true ∧
      walkEnd source (rest.map (fun t => t.node)) = k ∧
      ∀ dep : Nat → Nat, dep source = 0 →
        (∀ ent ∈ vis, dep ent.1 = dep ent.2.1 + 1) →
        rest.length = dep k := by
  intro fuel
  induction fuel with
  | zero =>
    intro k acc hk
    rcases hk with ⟨_, h⟩ | ⟨_, h⟩ <;> omega
  | succ fuel ih =>
    intro k acc hk
    by_cases hks : k = source
    · refine ⟨[], ?_, rfl, hks.symm, ?_⟩
      · simp only [reconsAux]
        rw [if_pos (by simp [hks])]
        simp
      · intro dep h0 _
        rw [hks, h0]
        rfl
    · have hkmem : k ∈ visKeys vis := by
        rcases hk with ⟨h, _⟩ | ⟨h, _⟩
        · exact absurd h hks
        · exact h
      have hidx : (visKeys vis).indexOf k + 2 ≤ fuel + 1 := by
        rcases hk with ⟨h, _⟩ | ⟨_, h⟩
        · exact absurd h hks
        · exact h
      obtain ⟨v, hlookup⟩ : ∃ v, vis.lookup k = some v := by
        have := (visLookup_isSome vis k).mpr hkmem
        cases h : vis.lookup k with
        | none => rw [h] at this; exact Bool.noConfusion this
        | some v => exact ⟨v, rfl⟩
      obtain ⟨prev, d⟩ := v
      have hment : (k, (prev, d)) ∈ vis := lookup_mem vis k (prev, d)
        hlookup
      have hbeq : (k == source) = false := by simp [hks]
      have hstep : reconsAux source vis (fuel + 1) k acc =
          reconsAux source vis fuel prev (⟨k, some d⟩ :: acc) := by
        simp only [reconsAux]
        rw [hbeq]
        rw [if_neg Bool.false_ne_true]
        rw [hlookup]
      rw [hstep]
      have hprev := hW3 (k, (prev, d)) hment
      simp only at hprev
      have hih : (prev = source ∧ 1 ≤ fuel) ∨
          (prev ∈ visKeys vis ∧ (visKeys vis).indexOf prev + 2 ≤ fuel)
          := by
        rcases hprev with h | ⟨h1, h2⟩
        · left
          exact ⟨h, by omega⟩
        · right
          exact ⟨h1, by omega⟩
      obtain ⟨rest', heq, hchain, hend, hlen⟩ :=
        ih prev (⟨k, some d⟩ :: acc) hih
      refine ⟨rest' ++ [⟨k, some d⟩], ?_, ?_, ?_, ?_⟩
      · rw [heq, List.append_cons]
      · rw [visChainOk_concat]
        exact ⟨hchain, d, rfl, by rw [hend]; exact hment⟩
      · rw [List.map_append]
        simp only [List.map_cons, List.map_nil]
        exact walkEnd_concat _ _ _
      · intro dep h0 h1
        rw [List.length_append, hlen dep h0 h1, List.length_singleton]
        exact (h1 (k, (prev, d)) hment).symm

/-- The BFS frontier bound: any walk from the source either ends in a
reached node within its depth, or crosses a queued node strictly before
its end. -/
theorem walk_bound (edges : List GEdge) (source : Nat) (vis : Visited)
    (queue : List Nat) (dep : Nat → Nat)
    (hdep0 : dep source = 0)
    (hM : ∀ e ∈ edges, ((e.src = source ∨ e.src ∈ visKeys vis) ∧
      e.src ∉ queue) → (e.tgt = source ∨ e.tgt ∈ visKeys vis) ∧
      dep e.tgt ≤ dep e.src + 1) :
    ∀ w, walkSeq edges source w = true →
      (((walkEnd source w = source ∨ walkEnd source w ∈ visKeys vis) ∧
        dep (walkEnd source w) ≤ w.length) ∨
      (∃ q ∈ queue, dep q + 1 ≤ w.length)) := by
  intro w
  induction w using List.reverseRecOn with
  | nil =>
    intro _
    left
    rw [walkEnd_nil, hdep0]
    exact ⟨Or.inl rfl, le_refl _⟩
  | append_singleton l v ih =>
    intro hw
    rw [walkSeq_concat, Bool.and_eq_true] at hw
    obtain ⟨hwl, hedge⟩ := hw
    rw [walkEnd_concat, List.length_append, List.length_singleton]
    rcases ih hwl with ⟨hreach, hdepu⟩ | ⟨q, hqm, hle⟩
    · by_cases hq : walkEnd source l ∈ queue
      · right
        exact ⟨walkEnd source l, hq, by omega⟩
      · rw [hasEdgeB, List.any_eq_true] at hedge
        obtain ⟨e, he, hp⟩ := hedge
        simp only [Bool.and_eq_true, beq_iff_eq] at hp
        obtain ⟨hsrc, htgt⟩ := hp
        obtain ⟨hr, hd⟩ := hM e he (by rw [hsrc]; exact ⟨hreach, hq⟩)
        left
        rw [← htgt]
        exact ⟨hr, by rw [hsrc] at hd; omega⟩
    · right
      exact ⟨q, hqm, by omega⟩

theorem idxOf_append_right {l l' : List Nat} {a : Nat} (h : a ∉ l) :
    (l ++ l').indexOf a = l.length + l'.indexOf a := by
  induction l with
  | nil => simp
  | cons b t ih =>
    have hab : a ≠ b := fun he => h (he ▸ List.mem_cons_self b t)
    simp only [List.cons_append, List.indexOf_cons]
    rw [ih (fun hm => h (List.mem_cons_of_mem _ hm))]
    simp [beq_false_of_ne hab.symm]
    omega

theorem visKeys_append (a b : Visited) :
    visKeys (a ++ b) = visKeys a ++ visKeys b := by
  simp [visKeys]

theorem visKeys_length (a : Visited) : (visKeys a).length = a.length := by
  simp [visKeys]

theorem mem_visKeys {vis : Visited} {k : Nat} :
    k ∈ visKeys vis ↔ ∃ ent ∈ vis, ent.1 = k := by
  simp [visKeys]

theorem mem_outEdges {edges : List GEdge} {v : Nat} {e : GEdge} :
    e ∈ outEdges edges v ↔ e ∈ edges ∧ e.src = v := by
  simp [outEdges, List.mem_filter]

/-- The BFS loop invariant proof: with a well-formed visited map, a
two-layer queue of reached nodes, an expansion invariant, and enough fuel,
the loop returns only well-formed shortest paths to the target and returns
nothing only when the target is unreachable. -/
theorem bfsLoop_spec (edges : List GEdge) (source target : Nat)
    (hst : source ≠ target) :
    ∀ (fuel : Nat) (vis : Visited) (queue : List Nat),
    (∀ ent ∈ vis, ∃ e ∈ edges, e.src = ent.2.1 ∧ e.tgt = ent.1 ∧
      e.data = ent.2.2) →
    (visKeys vis).Nodup →
    (∀ ent ∈ vis, ent.2.1 = source ∨ (ent.2.1 ∈ visKeys vis ∧
      (visKeys vis).indexOf ent.2.1 < (visKeys vis).indexOf ent.1)) →
    (∀ ent ∈ vis, ent.1 ≠ source) →
    target ∉ visKeys vis →
    (∀ x ∈ queue, x = source ∨ x ∈ visKeys vis) →
    (∀ k ∈ visKeys vis, k ∈ edges.map (fun e => e.tgt)) →
    queue.length + (edges.length - vis.length) + 1 ≤ fuel →
    (∃ (dep : Nat → Nat) (a : Nat) (q1 q2 : List Nat),
      dep source = 0 ∧
      (∀ ent ∈ vis, dep ent.1 = dep ent.2.1 + 1) ∧
      queue = q1 ++ q2 ∧ (∀ x ∈ q1, dep x = a) ∧
      (∀ x ∈ q2, dep x = a + 1) ∧
      (∀ x, x = source ∨ x ∈ visKeys vis → dep x ≤ a + 1) ∧
      (∀ e ∈ edges, (e.src = source ∨ e.src ∈ visKeys vis) ∧
        e.src ∉ queue → (e.tgt = source ∨ e.tgt ∈ visKeys vis) ∧
        dep e.tgt ≤ dep e.src + 1)) →
    (∀ p, bfsLoop edges source target fuel vis queue = some p →
      pathOk edges source target p = true ∧
      ∀ w, walkSeq edges source w = true → walkEnd source w = target →
        p.length ≤ w.length + 1) ∧
    (bfsLoop edges source target fuel vis queue = none →
      ∀ w, walkSeq edges source w = true →
        walkEnd source w ≠ target) := by
  intro fuel
  induction fuel with
  | zero =>
    intro vis queue _ _ _ _ _ _ _ hF _
    exact absurd hF (by omega)
  | succ fuel ih =>
    intro vis queue hW1 hW2 hW3 hW4 hT hQ1 hK hF hG
    obtain ⟨dep, a0, q1, q2, hdep0, hdep1, hqeq, hq1, hq2, hRle, hM⟩ := hG
    cases queue with
    | nil =>
      constructor
      · intro p hp
        simp only [bfsLoop] at hp
        exact Option.noConfusion hp
      · intro _ w hw hend
        rcases walk_bound edges source vis [] dep hdep0 hM w hw with
          ⟨hreach, _⟩ | ⟨q, hq, _⟩
        · rcases hreach with h1 | h1
          · rw [hend] at h1
            exact hst h1.symm
          · rw [hend] at h1
            exact hT h1
        · exact absurd hq (List.not_mem_nil q)
    | cons current rest =>
      obtain ⟨a, q1t, q2n, hrest, hdepc, hq1n, hq2n, hRlen⟩ :
          ∃ a q1t q2n, rest = q1t ++ q2n ∧ dep current = a ∧
            (∀ x ∈ q1t, dep x = a) ∧ (∀ x ∈ q2n, dep x = a + 1) ∧
            (∀ x, x = source ∨ x ∈ visKeys vis → dep x ≤ a + 1) := by
        cases q1 with
        | nil =>
          simp only [List.nil_append] at hqeq
          refine ⟨a0 + 1, rest, [], by simp, ?_, ?_, by simp, ?_⟩
          · exact hq2 current (by
              rw [← hqeq]
              exact List.mem_cons_self _ _)
          · intro x hx
            exact hq2 x (by
              rw [← hqeq]
              exact List.mem_cons_of_mem _ hx)
          · intro x hx
            exact le_trans (hRle x hx) (by omega)
        | cons c q1tt =>
          rw [List.cons_append] at hqeq
          injection hqeq with h1 h2
          subst h1
          refine ⟨a0, q1tt, q2, h2,
            hq1 current (List.mem_cons_self _ _), ?_, hq2, hRle⟩
          · intro x hx
            exact hq1 x (List.mem_cons_of_mem _ hx)
      have hreachc : current = source ∨ current ∈ visKeys vis :=
        hQ1 current (List.mem_cons_self _ _)
      obtain ⟨dl, hp1, hp2, hp3, hp4, hp5⟩ :=
        processEdges_spec source target current (outEdges edges current)
          vis rest hW2 hT
      have hdisj : ∀ x ∈ visKeys vis, x ∉ visKeys dl := by
        have h := hp3
        rw [visKeys_append, List.nodup_append] at h
        exact fun x hx => h.2.2 hx
      have hsrcdl : source ∉ visKeys dl := by
        intro hmem
        obtain ⟨ent, hent, he⟩ := mem_visKeys.mp hmem
        exact (hp2 ent hent).2.2.2 he
      have hW1' : ∀ ent ∈ vis ++ dl, ∃ e ∈ edges, e.src = ent.2.1 ∧
          e.tgt = ent.1 ∧ e.data = ent.2.2 := by
        intro ent hent
        rcases List.mem_append.mp hent with h | h
        · exact hW1 ent h
        · obtain ⟨hpar, ⟨e, he, htgte, hdata⟩, _, _⟩ := hp2 ent h
          obtain ⟨hee, hesrc⟩ := mem_outEdges.mp he
          exact ⟨e, hee, by rw [hesrc, hpar], htgte, hdata⟩
      have hW3' : ∀ ent ∈ vis ++ dl, ent.2.1 = source ∨
          (ent.2.1 ∈ visKeys (vis ++ dl) ∧
            (visKeys (vis ++ dl)).indexOf ent.2.1 <
              (visKeys (vis ++ dl)).indexOf ent.1) := by
        intro ent hent
        rw [visKeys_append]
        rcases List.mem_append.mp hent with h | h
        · rcases hW3 ent h with h1 | ⟨h1, h2⟩
          · exact Or.inl h1
          · right
            have hk1 : ent.1 ∈ visKeys vis :=
              mem_visKeys.mpr ⟨ent, h, rfl⟩
            rw [List.indexOf_append_of_mem h1,
              List.indexOf_append_of_mem hk1]
            exact ⟨List.mem_append_left _ h1, h2⟩
        · obtain ⟨hpar, _, hnotin, _⟩ := hp2 ent h
          rcases hreachc with hc | hc
          · left
            rw [hpar, hc]
          · right
            rw [hpar]
            constructor
            · exact List.mem_append_left _ hc
            · rw [List.indexOf_append_of_mem hc]
              have hlt : (visKeys vis).indexOf current <
                  (visKeys vis).length := List.indexOf_lt_length.mpr hc
              have hge : (visKeys vis).length ≤
                  (visKeys vis ++ visKeys dl).indexOf ent.1 := by
                rw [idxOf_append_right hnotin]
                omega
              omega
      have hW4' : ∀ ent ∈ vis ++ dl, ent.1 ≠ source := by
        intro ent hent
        rcases List.mem_append.mp hent with h | h
        · exact hW4 ent h
        · exact (hp2 ent h).2.2.2
      have ha0 : current = source → a = 0 := by
        intro h
        rw [h, hdep0] at hdepc
        exact hdepc.symm
      set ndep := fun x => if x ∈ visKeys dl then a + 1 else dep x
        with hndepdef
      have hndep0 : ndep source = 0 := by
        simp only [hndepdef]
        rw [if_neg hsrcdl]
        exact hdep0
      have hndepold : ∀ x, x ∉ visKeys dl → ndep x = dep x := by
        intro x hx
        simp only [hndepdef]
        rw [if_neg hx]
      have hndepnew : ∀ x, x ∈ visKeys dl → ndep x = a + 1 := by
        intro x hx
        simp only [hndepdef]
        rw [if_pos hx]
      have hndep1 : ∀ ent ∈ vis ++ dl, ndep ent.1 = ndep ent.2.1 + 1 := by
        intro ent hent
        rcases List.mem_append.mp hent with h | h
        · have hk : ent.1 ∈ visKeys vis := mem_visKeys.mpr ⟨ent, h, rfl⟩
          have hpar : ent.2.1 ∉ visKeys dl := by
            rcases hW3 ent h with h1 | ⟨h1, _⟩
            · rw [h1]
              exact hsrcdl
            · exact hdisj _ h1
          rw [hndepold _ (hdisj _ hk), hndepold _ hpar]
          exact hdep1 ent h
        · obtain ⟨hpar, _, _, _⟩ := hp2 ent h
          have hk : ent.1 ∈ visKeys dl := mem_visKeys.mpr ⟨ent, h, rfl⟩
          rw [hndepnew _ hk, hpar]
          rcases hreachc with hc | hc
          · rw [hc, hndepold _ hsrcdl, hdep0, ha0 hc]
          · rw [hndepold _ (hdisj _ hc), hdepc]
      have hqdep : ∀ q ∈ current :: rest, a ≤ dep q := by
        intro q hq
        rcases List.mem_cons.mp hq with h | h
        · rw [h, hdepc]
        · rw [hrest] at h
          rcases List.mem_append.mp h with h | h
          · rw [hq1n q h]
          · rw [hq2n q h]
            omega
      have hsplit : processEdges source target current
          (outEdges edges current) vis rest =
          (vis ++ dl,
           (processEdges source target current (outEdges edges current)
             vis rest).2.1,
           (processEdges source target current (outEdges edges current)
             vis rest).2.2) := by
        rw [← hp1]
      cases hfound : (processEdges source target current
          (outEdges edges current) vis rest).2.2 with
      | true =>
        obtain ⟨dl0, dd, hdl, hqout⟩ := hp5 hfound
        have hstep : bfsLoop edges source target (fuel + 1) vis
            (current :: rest) =
            some (reconstruct_path source target (vis ++ dl)) := by
          simp only [bfsLoop]
          rw [hsplit, hfound]
        constructor
        · intro p hp
          rw [hstep] at hp
          injection hp with hp
          subst hp
          have htgtmem : target ∈ visKeys dl := by
            rw [hdl, visKeys_append]
            exact List.mem_append_right _ (by simp [visKeys])
          have htgtmem2 : target ∈ visKeys (vis ++ dl) := by
            rw [visKeys_append]
            exact List.mem_append_right _ htgtmem
          have hidxlt : (visKeys (vis ++ dl)).indexOf target <
              (vis ++ dl).length := by
            have h := List.indexOf_lt_length.mpr htgtmem2
            rw [visKeys_length] at h
            exact h
          obtain ⟨restS, heq, hchain, hend, hlen⟩ :=
            reconsAux_spec source (vis ++ dl) hp3 hW3'
              ((vis ++ dl).length + 1) target []
              (Or.inr ⟨htgtmem2, by omega⟩)
          have hrp : reconstruct_path source target (vis ++ dl) =
              ⟨source, none⟩ :: restS := by
            rw [reconstruct_path, heq]
            simp
          constructor
          · rw [hrp]
            have hsteps : stepsOk edges source restS = true :=
              visChainOk_stepsOk edges (vis ++ dl) hW1' source restS
                hchain
            simp [pathOk, hsteps, hend]
          · intro w hw hend2
            have hlenS : restS.length = a + 1 := by
              rw [hlen ndep hndep0 hndep1, hndepnew _ htgtmem]
            rcases walk_bound edges source vis (current :: rest) dep
                hdep0 hM w hw with ⟨hreach2, _⟩ | ⟨q, hqm, hle⟩
            · rcases hreach2 with h1 | h1
              · rw [hend2] at h1
                exact absurd h1.symm hst
              · rw [hend2] at h1
                exact absurd h1 hT
            · have hqa := hqdep q hqm
              rw [hrp]
              simp only [List.length_cons, hlenS]
              omega
        · intro hnone
          rw [hstep] at hnone
          exact Option.noConfusion hnone
      | false =>
        obtain ⟨hqout, hT', hcomplete⟩ := hp4 hfound
        have hstep : bfsLoop edges source target (fuel + 1) vis
            (current :: rest) = bfsLoop edges source target fuel
              (vis ++ dl) (rest ++ visKeys dl) := by
          simp only [bfsLoop]
          rw [hsplit, hfound, hqout]
        have hQ1' : ∀ x ∈ rest ++ visKeys dl, x = source ∨
            x ∈ visKeys (vis ++ dl) := by
          intro x hx
          rw [visKeys_append]
          rcases List.mem_append.mp hx with h | h
          · rcases hQ1 x (List.mem_cons_of_mem _ h) with h1 | h1
            · exact Or.inl h1
            · exact Or.inr (List.mem_append_left _ h1)
          · exact Or.inr (List.mem_append_right _ h)
        have hK' : ∀ k ∈ visKeys (vis ++ dl), k ∈ edges.map
            (fun e => e.tgt) := by
          intro k hk
          rw [visKeys_append] at hk
          rcases List.mem_append.mp hk with h | h
          · exact hK k h
          · obtain ⟨ent, hent, hke⟩ := mem_visKeys.mp h
            obtain ⟨_, ⟨e, he, htgte, _⟩, _, _⟩ := hp2 ent hent
            obtain ⟨hee, _⟩ := mem_outEdges.mp he
            rw [← hke, ← htgte]
            exact List.mem_map_of_mem _ hee
        have hlenvis : vis.length + dl.length ≤ edges.length := by
          have h2 := nodup_length_le hp3 (fun x hx => hK' x hx)
          rw [visKeys_length, List.length_map, List.length_append] at h2
          exact h2
        have hF' : (rest ++ visKeys dl).length +
            (edges.length - (vis ++ dl).length) + 1 ≤ fuel := by
          rw [List.length_append, visKeys_length, List.length_append]
          simp only [List.length_cons] at hF
          omega
        have hG' : ∃ (dep2 : Nat → Nat) (b : Nat) (r1 r2 : List Nat),
            dep2 source = 0 ∧
            (∀ ent ∈ vis ++ dl, dep2 ent.1 = dep2 ent.2.1 + 1) ∧
            rest ++ visKeys dl = r1 ++ r2 ∧ (∀ x ∈ r1, dep2 x = b) ∧
            (∀ x ∈ r2, dep2 x = b + 1) ∧
            (∀ x, x = source ∨ x ∈ visKeys (vis ++ dl) →
              dep2 x ≤ b + 1) ∧
            (∀ e ∈ edges, (e.src = source ∨ e.src ∈ visKeys (vis ++ dl))
              ∧ e.src ∉ rest ++ visKeys dl →
              (e.tgt = source ∨ e.tgt ∈ visKeys (vis ++ dl)) ∧
              dep2 e.tgt ≤ dep2 e.src + 1) := by
          refine ⟨ndep, a, q1t, q2n ++ visKeys dl, hndep0, hndep1, ?_,
            ?_, ?_, ?_, ?_⟩
          · rw [hrest, List.append_assoc]
          · intro x hx
            have hxq : x ∈ current :: rest := List.mem_cons_of_mem _ (by
              rw [hrest]
              exact List.mem_append_left _ hx)
            have hnd : x ∉ visKeys dl := by
              rcases hQ1 x hxq with h | h
              · rw [h]
                exact hsrcdl
              · exact hdisj _ h
            rw [hndepold _ hnd]
            exact hq1n x hx
          · intro x hx
            rcases List.mem_append.mp hx with h | h
            · have hxq : x ∈ current :: rest := List.mem_cons_of_mem _
                (by
                  rw [hrest]
                  exact List.mem_append_right _ h)
              have hnd : x ∉ visKeys dl := by
                rcases hQ1 x hxq with h1 | h1
                · rw [h1]
                  exact hsrcdl
                · exact hdisj _ h1
              rw [hndepold _ hnd]
              exact hq2n x h
            · exact hndepnew _ h
          · intro x hx
            rcases hx with h | h
            · rw [h, hndep0]
              omega
            · rw [visKeys_append] at h
              rcases List.mem_append.mp h with h | h
              · rw [hndepold _ (hdisj _ h)]
                exact hRlen x (Or.inr h)
              · rw [hndepnew _ h]
          · intro e he hcond
            obtain ⟨hre, hnq⟩ := hcond
            by_cases hsdl : e.src ∈ visKeys dl
            · exact absurd (List.mem_append_right rest hsdl) hnq
            · have hreold : e.src = source ∨ e.src ∈ visKeys vis := by
                rcases hre with h | h
                · exact Or.inl h
                · rw [visKeys_append] at h
                  rcases List.mem_append.mp h with h | h
                  · exact Or.inr h
                  · exact absurd h hsdl
              rw [hndepold _ hsdl]
              by_cases hcur : e.src = current
              · have heo : e ∈ outEdges edges current :=
                  mem_outEdges.mpr ⟨he, hcur⟩
                rcases hcomplete e heo with h | h
                · refine ⟨Or.inr h, ?_⟩
                  rw [visKeys_append] at h
                  rcases List.mem_append.mp h with h | h
                  · rw [hndepold _ (hdisj _ h)]
                    have hb := hRlen e.tgt (Or.inr h)
                    rw [hcur, hdepc]
                    omega
                  · rw [hndepnew _ h, hcur, hdepc]
                · refine ⟨Or.inl h, ?_⟩
                  rw [h, hndep0]
                  omega
              · have hnqold : e.src ∉ current :: rest := by
                  intro hmem
                  rcases List.mem_cons.mp hmem with h | h
                  · exact hcur h
                  · exact hnq (List.mem_append_left _ h)
                obtain ⟨hrt, hdt⟩ := hM e he ⟨hreold, hnqold⟩
                constructor
                · rcases hrt with h | h
                  · exact Or.inl h
                  · right
                    rw [visKeys_append]
                    exact List.mem_append_left _ h
                · have htnd : e.tgt ∉ visKeys dl := by
                    rcases hrt with h | h
                    · rw [h]
                      exact hsrcdl
                    · exact hdisj _ h
                  rw [hndepold _ htnd]
                  exact hdt
        obtain ⟨hsome, hnone⟩ := ih (vis ++ dl) (rest ++ visKeys dl)
          hW1' hp3 hW3' hW4' hT' hQ1' hK' hF' hG'
        constructor
        · intro p hp
          rw [hstep] at hp
          exact hsome p hp
        · intro hn w hw he
          rw [hstep] at hn
          exact hnone hn w hw he

/-- C6: `find_path` returns only well-formed paths — beginning at the
source with no edge, each later step carrying an edge of the graph leading
from its predecessor to it, ending at the target; the single-node path
when source equals target; a path exists exactly when a directed walk from
source to target exists; and any returned path is no longer than any walk
(BFS minimality). -/
theorem C6_find_path_bfs (edges : List GEdge) (source target : Nat) :
    (source = target → find_path edges source target =
      some [⟨source, none⟩]) ∧
    (∀ p, find_path edges source target = some p →
      pathOk edges source target p = true) ∧
    ((∃ w, walkSeq edges source w = true ∧ walkEnd source w = target) ↔
      (find_path edges source target).isSome = true) ∧
    (∀ p, find_path edges source target = some p →
      ∀ w, walkSeq edges source w = true → walkEnd source w = target →
        p.length ≤ w.length + 1) := by
  by_cases hst : source = target
  · have hfp : find_path edges source target =
        some [⟨source, none⟩] := by
      rw [find_path, if_pos (by simp [hst])]
    refine ⟨fun _ => hfp, ?_, ?_, ?_⟩
    · intro p hp
      rw [hfp] at hp
      injection hp with hp
      subst hp
      simp [pathOk, walkEnd_nil, hst, stepsOk]
    · constructor
      · intro _
        rw [hfp]
        rfl
      · intro _
        exact ⟨[], rfl, hst⟩
    · intro p hp w _ _
      rw [hfp] at hp
      injection hp with hp
      subst hp
      simp
  · have hfp : find_path edges source target =
        bfsLoop edges source target (edges.length + 2) [] [source] := by
      rw [find_path, if_neg (by simp [hst])]
    obtain ⟨hsome, hnone⟩ :=
      bfsLoop_spec edges source target hst (edges.length + 2) []
        [source]
        (fun ent h => absurd h (List.not_mem_nil ent))
        (by simp [visKeys])
        (fun ent h => absurd h (List.not_mem_nil ent))
        (fun ent h => absurd h (List.not_mem_nil ent))
        (by simp [visKeys])
        (fun x hx => Or.inl (List.mem_singleton.mp hx))
        (fun k hk => absurd hk (by simp [visKeys]))
        (by
          simp only [List.length_singleton, List.length_nil,
            Nat.sub_zero]
          omega)
        ⟨fun _ => 0, 0, [source], [], rfl,
          fun ent h => absurd h (List.not_mem_nil ent), rfl,
          fun x _ => rfl, fun x hx => absurd hx (List.not_mem_nil x),
          fun x _ => Nat.zero_le _,
          fun e he hcond => absurd (by
            rw [hcond.1.resolve_right (fun h =>
              absurd h (List.not_mem_nil e.src))]
            exact List.mem_singleton.mpr rfl) hcond.2⟩
    refine ⟨fun h => absurd h hst, ?_, ?_, ?_⟩
    · intro p hp
      rw [hfp] at hp
      exact (hsome p hp).1
    · constructor
      · rintro ⟨w, hw, he⟩
        cases hval : find_path edges source target with
        | some p => rfl
        | none =>
          rw [hfp] at hval
          exact absurd he (hnone hval w hw)
      · intro hisSome
        cases hval : find_path edges source target with
        | none =>
          rw [hval] at hisSome
          exact Bool.noConfusion hisSome
        | some p =>
          have hpok : pathOk edges source target p = true := by
            rw [hfp] at hval
            exact (hsome p hval).1
          cases p with
          | nil => exact absurd hpok (by simp [pathOk])
          | cons s pr =>
            simp only [pathOk, Bool.and_eq_true, beq_iff_eq] at hpok
            obtain ⟨⟨⟨hnode, hedge⟩, hsteps⟩, hendw⟩ := hpok
            exact ⟨pr.map (fun t => t.node),
              stepsOk_walkSeq edges source pr hsteps, hendw⟩
    · intro p hp w hw he
      rw [hfp] at hp
      exact (hsome p hp).2 w hw he

/-- Edge data for the C6 witness graph. -/
def c6D : DiffEdgeData where
  db_id := 1
  diff_path := (7, 9)
  diff_size := 3

/-- A one-edge graph `7 → 9` for the C6 witness. -/
def c6Edges : List GEdge := [{ src := 7, tgt := 9, data := c6D }]

/-- The path BFS finds from `7` to `9` in `c6Edges`. -/
def c6Path : List PathStep := [⟨7, none⟩, ⟨9, some c6D⟩]

/-- Witness for C6: on the one-edge graph, the found path is well-formed
and no longer than the walk `7 → 9`. -/
theorem C6_find_path_bfs_witness :
    pathOk c6Edges 7 9 c6Path = true ∧
      c6Path.length ≤ [9].length + 1 :=
  ⟨(C6_find_path_bfs c6Edges 7 9).2.1 c6Path rfl,
   (C6_find_path_bfs c6Edges 7 9).2.2.2 c6Path rfl [9] rfl rfl⟩

end Dromos
